import Mathlib

/-!
Verification of the `tokeneer` subword tokenizer library.

This file shallowly embeds the BPE merge engine (`src/bpe/algorithm.rs`,
`src/bpe/mod.rs`), the vocabulary preprocessor (`src/vocab.rs`) and the
`tokenizer.model` framing parser into Lean, and proves or refutes the
specification claims about them.

Modelling conventions:
  * token ids (`utok`, Rust `u32`) are natural numbers;
  * byte strings are `List Nat` (each entry a byte value);
  * a text is given as a `List (List Nat)`: the UTF-8 byte chunks of its
    characters in order (Rust iterates `char_indices` and re-encodes each
    char, so this is exactly the information the algorithm consumes);
  * Rust panics (out-of-bounds indexing / slicing, subtraction overflow)
    are modelled by returning `none`;
  * the `BinaryHeap` is modelled as a multiset (a `List Merge`) whose pop
    operation removes a maximal element under the source's `Ord` instance;
    since two `Merge` values comparing `Equal` are structurally equal this
    is observationally the heap's behaviour;
  * loops are given explicit fuel so that every definition is executable
    by `decide`/`rfl`; fuel-sufficiency is proved where termination is
    claimed.
-/

namespace Tokeneer

/-- Token id, Rust `utok = u32`. -/
abbrev utok := Nat

/-- Metadata of one token: its piece bytes and its merge rank
(`TokenMeta` in `src/bpe/mod.rs`; the `ptr`/`len` view into the arena is
replaced by the piece bytes it denotes). -/
structure TokenMeta where
  piece : List Nat
  rank : Nat
deriving DecidableEq, Repr

/-- The BPE tokenizer state after construction (`struct Bpe`).
`bytes` is the 256-entry byte table, modelled as a total function. -/
structure Bpe where
  tokens : List TokenMeta
  sorted_pieces : List utok
  bytes : Nat → utok
  unk : utok

/-- `Bpe::token`: token id to metadata.  Rust indexes `self.tokens[token]`
(panicking out of bounds); inside the engine all ids are in range, which
the invariants track, so the total `getD` view is used; the panicking
behaviour of the public `decode` path is modelled separately by
`Bpe.decodeTok`. -/
def Bpe.token (bpe : Bpe) (t : utok) : TokenMeta :=
  bpe.tokens.getD t ⟨[], 0⟩

/-- Piece bytes of a token. -/
def Bpe.pieceOf (bpe : Bpe) (t : utok) : List Nat :=
  (bpe.token t).piece

/-- Byte length of a token's piece. -/
def Bpe.tokenLen (bpe : Bpe) (t : utok) : Nat :=
  (bpe.pieceOf t).length

/-- `Bpe::find_piece`: look the piece up among `sorted_pieces` (Rust uses
`binary_search_by_key`, whose `Ok` result is an index whose key equals the
probe; `find?` over the same list returns a token with the same two
properties used below: its piece equals the probe and it is a member of
`sorted_pieces`), falling back to the byte table for single bytes. -/
def Bpe.findPiece (bpe : Bpe) (piece : List Nat) : Option utok :=
  match bpe.sorted_pieces.find? (fun t => bpe.pieceOf t == piece) with
  | some t => some t
  | none =>
    match piece with
    | [b] => some (bpe.bytes b)
    | _ => none

/-- Contiguous byte segment `text[start .. start+len]` (clamped). -/
def seg (text : List Nat) (start len : Nat) : List Nat :=
  (text.drop start).take len

/-- Per-byte mark (`struct Mark`): current owning token and distance back
to the previous live token. -/
structure Mark where
  token : utok
  back_distance : Nat
deriving DecidableEq, Repr

/-- Mark entry at a position (all engine reads are in range; the default
only matters for out-of-range `getD`). -/
def markEntry (marks : List Mark) (p : Nat) : Mark :=
  marks.getD p ⟨0, 0⟩

/-- Token currently at byte position `p`. -/
def markTok (marks : List Mark) (p : Nat) : utok :=
  (markEntry marks p).token

/-- Back distance currently at byte position `p`. -/
def markBack (marks : List Mark) (p : Nat) : Nat :=
  (markEntry marks p).back_distance

/-- `marks[p].token = t` (other fields preserved; no-op out of range, like
every call site in the source which only writes in range). -/
def setTok (marks : List Mark) (p : Nat) (t : utok) : List Mark :=
  marks.set p { markEntry marks p with token := t }

/-- `marks[p].back_distance = d`. -/
def setBack (marks : List Mark) (p : Nat) (d : Nat) : List Mark :=
  marks.set p { markEntry marks p with back_distance := d }

/-- A queued merge candidate (`struct Merge`); all fields are written as
`Nat` (`utok` unfolds to `Nat`). -/
structure Merge where
  pos : Nat
  pair : Nat × Nat
  merge : Nat
  rank : Nat
deriving DecidableEq, Repr

/-- Strictly-higher-priority relation between candidates, transcribing
`impl Ord for Merge` (compare `rank`, then `merge`, then `pos`, then
`pair` lexicographically; the `.reverse()` makes the `BinaryHeap` pop the
minimum of this tuple, i.e. the `mergeBefore`-least element). -/
def mergeBefore (a b : Merge) : Prop :=
  a.rank < b.rank ∨
    (a.rank = b.rank ∧
      (a.merge < b.merge ∨
        (a.merge = b.merge ∧
          (a.pos < b.pos ∨
            (a.pos = b.pos ∧
              (a.pair.1 < b.pair.1 ∨
                (a.pair.1 = b.pair.1 ∧ a.pair.2 < b.pair.2)))))))

instance (a b : Merge) : Decidable (mergeBefore a b) := by
  unfold mergeBefore
  infer_instance

/-- Pop the highest-priority element of the queue (what
`BinaryHeap::pop` returns given the reversed `Ord`), together with the
remaining multiset. -/
def popBest : List Merge → Option (Merge × List Merge)
  | [] => none
  | m :: ms =>
    match popBest ms with
    | none => some (m, [])
    | some (b, rest) =>
      if mergeBefore b m then some (b, m :: rest) else some (m, ms)

/-- `Bpe::build_merge`: try to find a token for `text[start..stop]` and
build a candidate.  Callers are responsible for the slice being in
bounds (the Rust slice panics otherwise; `mergeApply` guards for it). -/
def Bpe.buildMerge (bpe : Bpe) (text : List Nat) (start stop : Nat)
    (pair : utok × utok) : Option Merge :=
  (bpe.findPiece (seg text start (stop - start))).map fun m =>
    { pos := start, pair := pair, merge := m, rank := (bpe.token m).rank }

/-- State threaded through `Bpe::begin_merge`'s character loop:
current byte offset `i`, offset of the previous successfully-placed
character (`last`), the mark array and the candidate queue. -/
structure BMState where
  i : Nat
  last : Option Nat
  marks : List Mark
  merges : List Merge
deriving Repr

/-- Fallback branch of `begin_merge`: each byte of the unmatched
character receives its byte-table token
(`for (&b, mark) in zip(c, &mut marks[i..]) { mark.token = self.bytes[b] }`). -/
def setByteToks (bpe : Bpe) (marks : List Mark) : Nat → List Nat → List Mark
  | _, [] => marks
  | i, b :: bs => setByteToks bpe (setTok marks i (bpe.bytes b)) (i + 1) bs

/-- One iteration of `begin_merge`'s loop, handling the character whose
UTF-8 bytes are `c` at byte offset `s.i`. -/
def beginMergeStep (bpe : Bpe) (text : List Nat) (s : BMState) (c : List Nat) :
    BMState :=
  match bpe.findPiece c with
  | some t =>
    let marks1 := setTok s.marks s.i t
    match s.last with
    | some p =>
      let marks2 := setBack marks1 s.i (s.i - p)
      let merges' :=
        match bpe.buildMerge text p (s.i + c.length) (markTok s.marks p, t) with
        | some m => m :: s.merges
        | none => s.merges
      ⟨s.i + c.length, some s.i, marks2, merges'⟩
    | none => ⟨s.i + c.length, some s.i, marks1, s.merges⟩
  | none =>
    ⟨s.i + c.length, none, setByteToks bpe s.marks s.i c, s.merges⟩

/-- `Bpe::begin_merge`: initialize the mark array to `{unk, 0}` and run
the character loop over the text's characters. -/
def Bpe.beginMerge (bpe : Bpe) (chars : List (List Nat)) : BMState :=
  let text := chars.flatten
  chars.foldl (beginMergeStep bpe text)
    ⟨0, none, List.replicate text.length ⟨bpe.unk, 0⟩, []⟩

/-- The apply phase of `MergeState::merge` on a validated candidate `c`:
write the merged token, kill the right member, update the right
neighbour's back distance, and push up to two new candidates.
`none` models a Rust panic: the right-neighbour path slices
`text[p1..p4]` and the left-neighbour path computes `p1 - l0` and slices
`text[p0..p3]`, all of which can go out of bounds. -/
def mergeRight (bpe : Bpe) (text : List Nat) (c : Merge) (marks : List Mark)
    (rest : List Merge) : Option (List Mark × List Merge) :=
  let p1 := c.pos
  let l1 := bpe.tokenLen c.pair.1
  let l2 := bpe.tokenLen c.pair.2
  let p3 := p1 + l1 + l2
  let marksA := setTok (setTok marks p1 c.merge) (p1 + l1) bpe.unk
  if p3 < marksA.length then
    let marksB := setBack marksA p3 (l1 + l2)
    let t3 := markTok marksB p3
    let p4 := p3 + bpe.tokenLen t3
    if p4 ≤ text.length then
      match bpe.buildMerge text p1 p4 (c.merge, t3) with
      | some m => some (marksB, m :: rest)
      | none => some (marksB, rest)
    else none
  else some (marksA, rest)

def mergeLeft (bpe : Bpe) (text : List Nat) (c : Merge) (marksB : List Mark)
    (queueB : List Merge) : Option (List Mark × List Merge) :=
  let p1 := c.pos
  let p3 := p1 + bpe.tokenLen c.pair.1 + bpe.tokenLen c.pair.2
  let l0 := markBack marksB p1
  if l0 = 0 then some (marksB, queueB)
  else
    if l0 ≤ p1 ∧ p3 ≤ text.length then
      match bpe.buildMerge text (p1 - l0) p3 (markTok marksB (p1 - l0), c.merge) with
      | some m => some (marksB, m :: queueB)
      | none => some (marksB, queueB)
    else none

def mergeApply (bpe : Bpe) (text : List Nat) (c : Merge) (marks : List Mark)
    (rest : List Merge) : Option (List Mark × List Merge) :=
  (mergeRight bpe text c marks rest).bind fun s =>
    mergeLeft bpe text c s.1 s.2

/-- Validity check plus apply for one popped candidate.
`none` = panic; `some none` = stale candidate, discarded with the mark
array untouched; `some (some _)` = merge applied. -/
def processCand (bpe : Bpe) (text : List Nat) (marks : List Mark) (c : Merge)
    (rest : List Merge) : Option (Option (List Mark × List Merge)) :=
  if c.pos < marks.length then
    if markTok marks c.pos = c.pair.1 then
      if c.pos + bpe.tokenLen c.pair.1 < marks.length then
        if markTok marks (c.pos + bpe.tokenLen c.pair.1) = c.pair.2 then
          (mergeApply bpe text c marks rest).map some
        else some none
      else none
    else some none
  else none

/-- `MergeState::merge`: pop candidates until one is valid (apply it and
return `true` with the new state) or the queue empties (return `false`).
The fuel bounds the number of pops; any fuel above the queue length is
enough. -/
def mergeRun (bpe : Bpe) (text : List Nat) :
    Nat → List Mark → List Merge → Option (Bool × List Mark × List Merge)
  | 0, _, _ => none
  | fuel + 1, marks, queue =>
    match popBest queue with
    | none => some (false, marks, [])
    | some (c, rest) =>
      match processCand bpe text marks c rest with
      | none => none
      | some none => mergeRun bpe text fuel marks rest
      | some (some (marks', queue')) => some (true, marks', queue')

/-- The `while tokenizer.merge() {}` loop of `Bpe::encode`.  The fuel
bounds the number of `merge` calls; `text.length + 1` is proved
sufficient for representable texts. -/
def mergeLoop (bpe : Bpe) (text : List Nat) :
    Nat → List Mark → List Merge → Option (List Mark)
  | 0, _, _ => none
  | fuel + 1, marks, queue =>
    match mergeRun bpe text (queue.length + 1) marks queue with
    | none => none
    | some (false, marks', _) => some marks'
    | some (true, marks', queue') => mergeLoop bpe text fuel marks' queue'

/-- The final token emission (`impl Iterator for IntoIter`): starting at
position 0, emit the mark's token and jump forward by its piece length.
`none` models either the panic of `marks[i..]` when a jump overshoots the
array, or divergence when a zero-length token pins the cursor. -/
def emitFrom (bpe : Bpe) (marks : List Mark) : Nat → Nat → Option (List utok)
  | 0, i =>
    if i = marks.length then some [] else none
  | fuel + 1, i =>
    if i < marks.length then
      let t := markTok marks i
      (emitFrom bpe marks fuel (i + bpe.tokenLen t)).map (fun l => t :: l)
    else if i = marks.length then some []
    else none

/-- `Bpe::encode`: begin a merge state, run the merge loop, emit.
The input is the character chunk list of the text (see the header). -/
def Bpe.encode (bpe : Bpe) (chars : List (List Nat)) : Option (List utok) :=
  let text := chars.flatten
  let st := bpe.beginMerge chars
  match mergeLoop bpe text (text.length + 1) st.marks st.merges with
  | none => none
  | some marks => emitFrom bpe marks (marks.length + 1) 0

/-- `Bpe::decode` / `Bpe::token`: Rust indexes `self.tokens[token]` and
panics when the id is out of range; `none` models that panic. -/
def Bpe.decodeTok (bpe : Bpe) (t : utok) : Option (List Nat) :=
  (bpe.tokens.get? t).map TokenMeta.piece

/-- `Tokeneer::decode`: concatenate the per-token bytes of the sequence
(`String::from_utf8` then reinterprets the bytes; the byte level is what
the round-trip claims compare). -/
def decodeSeq (bpe : Bpe) (ts : List utok) : Option (List Nat) :=
  ts.foldr
    (fun t acc =>
      match bpe.decodeTok t, acc with
      | some p, some a => some (p ++ a)
      | _, _ => none)
    (some [])

/-! ### Basic lemmas about marks, segments, piece lookup and the queue -/

theorem length_setTok (marks : List Mark) (p : Nat) (t : utok) :
    (setTok marks p t).length = marks.length := by
  simp [setTok]

theorem length_setBack (marks : List Mark) (p : Nat) (d : Nat) :
    (setBack marks p d).length = marks.length := by
  simp [setBack]

theorem markEntry_set_self {marks : List Mark} {p : Nat} (h : p < marks.length)
    (e : Mark) : markEntry (marks.set p e) p = e := by
  simp [markEntry, List.getD_eq_getElem?_getD, List.getElem?_set_self h]

theorem markEntry_set_ne {marks : List Mark} {p q : Nat} (h : q ≠ p) (e : Mark) :
    markEntry (marks.set p e) q = markEntry marks q := by
  simp [markEntry, List.getD_eq_getElem?_getD,
    List.getElem?_set_ne (fun hpq => h hpq.symm)]

theorem markTok_setTok_self {marks : List Mark} {p : Nat} (h : p < marks.length)
    (t : utok) : markTok (setTok marks p t) p = t := by
  simp [markTok, setTok, markEntry_set_self h]

theorem markTok_setTok_ne {marks : List Mark} {p q : Nat} (h : q ≠ p) (t : utok) :
    markTok (setTok marks p t) q = markTok marks q := by
  simp [markTok, setTok, markEntry_set_ne h]

theorem markBack_setTok (marks : List Mark) (p q : Nat) (t : utok) :
    markBack (setTok marks p t) q = markBack marks q := by
  by_cases h : q = p
  · subst h
    by_cases hp : q < marks.length
    · simp [markBack, setTok, markEntry_set_self hp]
    · simp [markBack, setTok, List.set_eq_of_length_le (Nat.le_of_not_lt hp)]
  · simp [markBack, setTok, markEntry_set_ne h]

theorem markBack_setBack_self {marks : List Mark} {p : Nat} (h : p < marks.length)
    (d : Nat) : markBack (setBack marks p d) p = d := by
  simp [markBack, setBack, markEntry_set_self h]

theorem markBack_setBack_ne {marks : List Mark} {p q : Nat} (h : q ≠ p) (d : Nat) :
    markBack (setBack marks p d) q = markBack marks q := by
  simp [markBack, setBack, markEntry_set_ne h]

theorem markTok_setBack (marks : List Mark) (p q : Nat) (d : Nat) :
    markTok (setBack marks p d) q = markTok marks q := by
  by_cases h : q = p
  · subst h
    by_cases hp : q < marks.length
    · simp [markTok, setBack, markEntry_set_self hp]
    · simp [markTok, setBack, List.set_eq_of_length_le (Nat.le_of_not_lt hp)]
  · simp [markTok, setBack, markEntry_set_ne h]

theorem markEntry_replicate {n p : Nat} (h : p < n) (e : Mark) :
    markEntry (List.replicate n e) p = e := by
  simp [markEntry, List.getD_eq_getElem?_getD, List.getElem?_replicate, h]

theorem seg_length_of_le {text : List Nat} {s l : Nat} (h : s + l ≤ text.length) :
    (seg text s l).length = l := by
  simp [seg]
  omega

theorem seg_append {text : List Nat} (s a b : Nat) :
    seg text s (a + b) = seg text s a ++ seg text (s + a) b := by
  simp [seg, List.take_add, List.drop_drop]

theorem drop_eq_seg_append {text : List Nat} (p l : Nat) :
    text.drop p = seg text p l ++ text.drop (p + l) := by
  simp only [seg]
  rw [← List.drop_drop]
  exact (List.take_append_drop l (text.drop p)).symm

/-- What a successful `find_piece` guarantees: either a `sorted_pieces`
hit whose piece equals the probe, or (probe a single byte) the byte-table
entry. -/
theorem findPiece_spec {bpe : Bpe} {piece : List Nat} {t : utok}
    (h : bpe.findPiece piece = some t) :
    (t ∈ bpe.sorted_pieces ∧ bpe.pieceOf t = piece) ∨
      (∃ b, piece = [b] ∧ t = bpe.bytes b) := by
  unfold Bpe.findPiece at h
  rcases hf : bpe.sorted_pieces.find? (fun u => bpe.pieceOf u == piece) with _ | u
  · rw [hf] at h
    right
    match piece, h with
    | [b], h =>
      exact ⟨b, rfl, by cases h; rfl⟩
  · rw [hf] at h
    cases h
    left
    exact ⟨List.mem_of_find?_eq_some hf, by simpa using List.find?_some hf⟩

/-- For probes of length ≥ 2 a hit must come from `sorted_pieces`. -/
theorem findPiece_spec_multi {bpe : Bpe} {piece : List Nat} {t : utok}
    (h : bpe.findPiece piece = some t) (hlen : 2 ≤ piece.length) :
    t ∈ bpe.sorted_pieces ∧ bpe.pieceOf t = piece := by
  rcases findPiece_spec h with h' | ⟨b, hb, _⟩
  · exact h'
  · subst hb
    simp at hlen

/-- The tuple order `mergeBefore` is transitive. -/
theorem mergeBefore_trans {a b c : Merge} (h1 : mergeBefore a b)
    (h2 : mergeBefore b c) : mergeBefore a c := by
  unfold mergeBefore at h1 h2 ⊢
  omega

/-- The tuple order `mergeBefore` is irreflexive, hence asymmetric. -/
theorem mergeBefore_irrefl (a : Merge) : ¬ mergeBefore a a := by
  unfold mergeBefore
  omega

theorem mergeBefore_asymm {a b : Merge} (h : mergeBefore a b) :
    ¬ mergeBefore b a := by
  intro h'
  exact mergeBefore_irrefl a (mergeBefore_trans h h')

/-- Totality-flavoured step: if `b` is not before `m`, anything before
`m` is before `b`. -/
theorem mergeBefore_of_not {b m x : Merge} (hbm : ¬ mergeBefore b m)
    (hxm : mergeBefore x m) : mergeBefore x b := by
  unfold mergeBefore at hbm hxm ⊢
  omega


theorem popBest_nil_iff {queue : List Merge} :
    popBest queue = none ↔ queue = [] := by
  cases queue with
  | nil => simp [popBest]
  | cons m ms =>
    simp only [popBest]
    rcases popBest ms with _ | ⟨b, rs⟩
    · simp
    · by_cases hb : mergeBefore b m <;> simp [hb]

theorem popBest_mem {queue : List Merge} {c : Merge} {rest : List Merge}
    (h : popBest queue = some (c, rest)) : c ∈ queue := by
  induction queue generalizing c rest with
  | nil => simp [popBest] at h
  | cons m ms ih =>
    unfold popBest at h
    rcases hp : popBest ms with _ | ⟨b, rs⟩
    · rw [hp] at h
      cases h
      exact List.mem_cons_self _ _
    · rw [hp] at h
      by_cases hb : mergeBefore b m
      · simp [hb] at h
        exact List.mem_cons_of_mem _ (h.1 ▸ ih hp)
      · simp [hb] at h
        exact h.1 ▸ List.mem_cons_self m ms

theorem popBest_rest_mem {queue : List Merge} {c : Merge} {rest : List Merge}
    (h : popBest queue = some (c, rest)) : ∀ x ∈ rest, x ∈ queue := by
  induction queue generalizing c rest with
  | nil => simp [popBest] at h
  | cons m ms ih =>
    unfold popBest at h
    rcases hp : popBest ms with _ | ⟨b, rs⟩
    · rw [hp] at h
      cases h
      intro x hx
      simp at hx
    · rw [hp] at h
      by_cases hb : mergeBefore b m
      · simp [hb] at h
        intro x hx
        rw [← h.2] at hx
        rcases List.mem_cons.mp hx with h' | h'
        · exact h' ▸ List.mem_cons_self m ms
        · exact List.mem_cons_of_mem _ (ih hp x h')
      · simp [hb] at h
        intro x hx
        rw [← h.2] at hx
        exact List.mem_cons_of_mem _ hx

theorem popBest_length {queue : List Merge} {c : Merge} {rest : List Merge}
    (h : popBest queue = some (c, rest)) : rest.length + 1 = queue.length := by
  induction queue generalizing c rest with
  | nil => simp [popBest] at h
  | cons m ms ih =>
    unfold popBest at h
    rcases hp : popBest ms with _ | ⟨b, rs⟩
    · rw [hp] at h
      cases h
      cases (popBest_nil_iff.mp hp)
      rfl
    · rw [hp] at h
      by_cases hb : mergeBefore b m
      · simp [hb] at h
        rw [← h.2]
        simp [← ih hp]
      · simp [hb] at h
        rw [← h.2]
        simp

/-- The popped candidate is minimal in the `(rank, merge, pos, pair)`
order over the whole queue: nothing queued is strictly before it. -/
theorem popBest_min {queue : List Merge} {c : Merge} {rest : List Merge}
    (h : popBest queue = some (c, rest)) : ∀ x ∈ queue, ¬ mergeBefore x c := by
  induction queue generalizing c rest with
  | nil => simp [popBest] at h
  | cons m ms ih =>
    unfold popBest at h
    rcases hp : popBest ms with _ | ⟨b, rs⟩
    · rw [hp] at h
      cases h
      cases (popBest_nil_iff.mp hp)
      intro x hx
      rcases List.mem_cons.mp hx with h' | h'
      · exact h' ▸ mergeBefore_irrefl _
      · simp at h'
    · rw [hp] at h
      by_cases hb : mergeBefore b m
      · simp [hb] at h
        intro x hx
        rw [← h.1]
        rcases List.mem_cons.mp hx with h' | h'
        · exact h' ▸ mergeBefore_asymm hb
        · exact ih hp x h'
      · simp [hb] at h
        intro x hx
        rw [← h.1]
        rcases List.mem_cons.mp hx with h' | h'
        · exact h' ▸ mergeBefore_irrefl m
        · intro hxm
          exact ih hp x h' (mergeBefore_of_not hb hxm)

/-- Nothing remaining after a pop is strictly before the popped
candidate. -/
theorem popBest_best {queue : List Merge} {c : Merge} {rest : List Merge}
    (h : popBest queue = some (c, rest)) : ∀ x ∈ rest, ¬ mergeBefore x c :=
  fun x hx => popBest_min h x (popBest_rest_mem h x hx)

/-! ### The live-token chain invariant

`CovN bpe text marks n p e` says: starting at byte offset `p`, the mark
array contains a chain of `n` live tokens whose spans partition
`[p, e)`; each live token is not `UNK`, its piece equals the text bytes
it covers, and all positions interior to a span hold `UNK`.  The whole
invariant of the merge engine is `CovN … n 0 text.length`. -/

inductive CovN (bpe : Bpe) (text : List Nat) (marks : List Mark) :
    Nat → Nat → Nat → Prop
  | nil (p : Nat) : CovN bpe text marks 0 p p
  | cons (n p e : Nat) (t : utok)
      (htok : markTok marks p = t)
      (hunk : t ≠ bpe.unk)
      (hpos : 0 < bpe.tokenLen t)
      (hseg : seg text p (bpe.tokenLen t) = bpe.pieceOf t)
      (hle : p + bpe.tokenLen t ≤ text.length)
      (hint : ∀ q, p < q → q < p + bpe.tokenLen t → markTok marks q = bpe.unk)
      (htail : CovN bpe text marks n (p + bpe.tokenLen t) e) :
      CovN bpe text marks (n + 1) p e

theorem covN_le {bpe : Bpe} {text : List Nat} {marks : List Mark}
    {n p e : Nat} (h : CovN bpe text marks n p e) : p ≤ e := by
  induction h with
  | nil => exact Nat.le_refl _
  | cons n p e t htok hunk hpos hseg hle hint htail ih => omega

theorem covN_count_le {bpe : Bpe} {text : List Nat} {marks : List Mark}
    {n p e : Nat} (h : CovN bpe text marks n p e) : p + n ≤ e := by
  induction h with
  | nil => omega
  | cons n p e t htok hunk hpos hseg hle hint htail ih => omega

theorem covN_trans {bpe : Bpe} {text : List Nat} {marks : List Mark}
    {m n a b c : Nat} (h1 : CovN bpe text marks m a b)
    (h2 : CovN bpe text marks n b c) : CovN bpe text marks (m + n) a c := by
  induction h1 with
  | nil => simpa using h2
  | cons m p e t htok hunk hpos hseg hle hint htail ih =>
    have := ih h2
    have heq : m + 1 + n = (m + n) + 1 := by omega
    rw [heq]
    exact CovN.cons _ _ _ t htok hunk hpos hseg hle hint this

/-- A chain of zero span has zero tokens. -/
theorem covN_self {bpe : Bpe} {text : List Nat} {marks : List Mark}
    {n p : Nat} (h : CovN bpe text marks n p p) : n = 0 := by
  cases h with
  | nil => rfl
  | cons n p e t htok hunk hpos hseg hle hint htail =>
    have := covN_le htail
    omega

/-- A chain only looks at the tokens in `[a, e)`, so it transports along
any marks change that preserves them. -/
theorem covN_frame {bpe : Bpe} {text : List Nat} {marks marks' : List Mark}
    {n a e : Nat} (h : CovN bpe text marks n a e)
    (hsame : ∀ q, a ≤ q → q < e → markTok marks' q = markTok marks q) :
    CovN bpe text marks' n a e := by
  induction h with
  | nil => exact CovN.nil _
  | cons n p e t htok hunk hpos hseg hle hint htail ih =>
    have hpe : p + bpe.tokenLen t ≤ e := covN_le htail
    refine CovN.cons _ _ _ t ?_ hunk hpos hseg hle ?_ ?_
    · rw [hsame p (Nat.le_refl _) (by omega)]
      exact htok
    · intro q hq1 hq2
      rw [hsame q (by omega) (by omega)]
      exact hint q hq1 hq2
    · exact ih (fun q hq1 hq2 => hsame q (by omega) hq2)

/-- Locating a non-`UNK` position inside a chain: it must start a live
token, and the chain splits around it. -/
theorem covN_locate {bpe : Bpe} {text : List Nat} {marks : List Mark}
    {n a e p : Nat} (h : CovN bpe text marks n a e) (hap : a ≤ p) (hpe : p < e)
    (hne : markTok marks p ≠ bpe.unk) :
    ∃ n1 n2, CovN bpe text marks n1 a p ∧
      (0 < bpe.tokenLen (markTok marks p) ∧
        markTok marks p ≠ bpe.unk ∧
        seg text p (bpe.tokenLen (markTok marks p)) = bpe.pieceOf (markTok marks p) ∧
        p + bpe.tokenLen (markTok marks p) ≤ text.length ∧
        (∀ q, p < q → q < p + bpe.tokenLen (markTok marks p) →
          markTok marks q = bpe.unk)) ∧
      CovN bpe text marks n2 (p + bpe.tokenLen (markTok marks p)) e ∧
      n = n1 + n2 + 1 := by
  induction h with
  | nil p' => omega
  | cons n q e t htok hunk hpos hseg hle hint htail ih =>
    by_cases hpq : p = q
    · subst hpq
      subst htok
      exact ⟨0, n, CovN.nil _, ⟨hpos, hunk, hseg, hle, hint⟩, htail, by omega⟩
    · by_cases hin : p < q + bpe.tokenLen t
      · exfalso
        exact hne (hint p (by omega) hin)
      · have hq : q + bpe.tokenLen t ≤ p := by omega
        obtain ⟨n1, n2, hc1, hmid, hc2, hn⟩ := ih hq hpe
        subst htok
        refine ⟨n1 + 1, n2, ?_, hmid, hc2, by omega⟩
        exact CovN.cons _ _ _ _ rfl hunk hpos hseg hle hint hc1

/-! ### The queue invariant and the merge-step preservation proof -/

/-- What is true of every candidate the engine ever enqueues (in a run
whose byte positions are all representable): the pair members and the
merge token are not `UNK`, the pair pieces are nonempty, the candidate
span is inside the text, and the merge token's piece is exactly the text
bytes of the span. -/
def CandOK (bpe : Bpe) (text : List Nat) (c : Merge) : Prop :=
  c.pair.1 ≠ bpe.unk ∧ c.pair.2 ≠ bpe.unk ∧ c.merge ≠ bpe.unk ∧
    0 < bpe.tokenLen c.pair.1 ∧ 0 < bpe.tokenLen c.pair.2 ∧
    c.pos + bpe.tokenLen c.pair.1 + bpe.tokenLen c.pair.2 ≤ text.length ∧
    bpe.pieceOf c.merge =
      seg text c.pos (bpe.tokenLen c.pair.1 + bpe.tokenLen c.pair.2)

theorem candOK_mergeLen {bpe : Bpe} {text : List Nat} {c : Merge}
    (h : CandOK bpe text c) :
    bpe.tokenLen c.merge = bpe.tokenLen c.pair.1 + bpe.tokenLen c.pair.2 := by
  obtain ⟨-, -, -, -, -, hle, hseg⟩ := h
  unfold Bpe.tokenLen
  rw [hseg]
  exact seg_length_of_le (by omega)

theorem buildMerge_fields {bpe : Bpe} {text : List Nat} {start stop : Nat}
    {pair : utok × utok} {m : Merge}
    (h : bpe.buildMerge text start stop pair = some m) :
    m.pos = start ∧ m.pair = pair ∧
      bpe.findPiece (seg text start (stop - start)) = some m.merge := by
  unfold Bpe.buildMerge at h
  rcases hf : bpe.findPiece (seg text start (stop - start)) with _ | mt
  · rw [hf] at h
    simp at h
  · rw [hf] at h
    simp at h
    rw [← h]
    exact ⟨rfl, rfl, rfl⟩

/-- A candidate produced by `build_merge` over an in-bounds span of at
least two bytes, whose requested pair pieces tile the span, satisfies
the queue invariant. -/
theorem buildMerge_candOK {bpe : Bpe} {text : List Nat} {start stop : Nat}
    {pair : utok × utok} {m : Merge}
    (hWFu : bpe.unk ∉ bpe.sorted_pieces)
    (h : bpe.buildMerge text start stop pair = some m)
    (hstop : stop ≤ text.length)
    (hlen : start + bpe.tokenLen pair.1 + bpe.tokenLen pair.2 = stop)
    (hu1 : pair.1 ≠ bpe.unk) (hu2 : pair.2 ≠ bpe.unk)
    (hl1 : 0 < bpe.tokenLen pair.1) (hl2 : 0 < bpe.tokenLen pair.2) :
    CandOK bpe text m := by
  obtain ⟨hpos, hpair, hfind⟩ := buildMerge_fields h
  have hseglen : (seg text start (stop - start)).length = stop - start :=
    seg_length_of_le (by omega)
  have hmulti := findPiece_spec_multi hfind (by omega)
  refine ⟨?_, ?_, ?_, ?_, ?_, ?_, ?_⟩
  · rw [hpair]; exact hu1
  · rw [hpair]; exact hu2
  · intro hEq
    exact hWFu (hEq ▸ hmulti.1)
  · rw [hpair]; exact hl1
  · rw [hpair]; exact hl2
  · rw [hpos, hpair]; omega
  · rw [hpos, hpair, hmulti.2]
    congr 1
    omega

/-- The full invariant of one `MergeState`: the mark array has the right
length, carries a live chain of `n` tokens covering the whole text, the
back distances point at live tokens of the right span (`bd`), and every
queued candidate satisfies `CandOK`. -/
structure EncInv (bpe : Bpe) (text : List Nat) (marks : List Mark)
    (queue : List Merge) (n : Nat) : Prop where
  len_eq : marks.length = text.length
  cov : CovN bpe text marks n 0 text.length
  bd0 : markBack marks 0 = 0
  bd : ∀ p, p < text.length → markTok marks p ≠ bpe.unk →
    0 < markBack marks p →
    markBack marks p ≤ p ∧
      markTok marks (p - markBack marks p) ≠ bpe.unk ∧
      bpe.tokenLen (markTok marks (p - markBack marks p)) = markBack marks p
  qinv : ∀ c ∈ queue, CandOK bpe text c

/-- Inversion: a chain over a nonempty range starts with a live node at
its left end. -/
theorem covN_head {bpe : Bpe} {text : List Nat} {marks : List Mark}
    {n p e : Nat} (h : CovN bpe text marks n p e) (hlt : p < e) :
    ∃ n', n = n' + 1 ∧ markTok marks p ≠ bpe.unk ∧
      0 < bpe.tokenLen (markTok marks p) ∧
      seg text p (bpe.tokenLen (markTok marks p)) =
        bpe.pieceOf (markTok marks p) ∧
      p + bpe.tokenLen (markTok marks p) ≤ text.length ∧
      (∀ q, p < q → q < p + bpe.tokenLen (markTok marks p) →
        markTok marks q = bpe.unk) ∧
      CovN bpe text marks n' (p + bpe.tokenLen (markTok marks p)) e := by
  cases h with
  | nil => omega
  | cons n q e t htok hunk hpos hseg hle hint htail =>
    subst htok
    exact ⟨n, rfl, hunk, hpos, hseg, hle, hint, htail⟩

/-- A candidate that passes the validity check sits on two adjacent
live chain nodes; the chain splits around them. -/
theorem valid_split {bpe : Bpe} {text : List Nat} {marks : List Mark}
    {queue : List Merge} {n : Nat} {c : Merge}
    (hinv : EncInv bpe text marks queue n) (hc : CandOK bpe text c)
    (hv1 : markTok marks c.pos = c.pair.1)
    (hv2 : markTok marks (c.pos + bpe.tokenLen c.pair.1) = c.pair.2) :
    ∃ n1 n22,
      CovN bpe text marks n1 0 c.pos ∧
        (∀ q, c.pos < q → q < c.pos + bpe.tokenLen c.pair.1 →
          markTok marks q = bpe.unk) ∧
        (∀ q, c.pos + bpe.tokenLen c.pair.1 < q →
          q < c.pos + bpe.tokenLen c.pair.1 + bpe.tokenLen c.pair.2 →
          markTok marks q = bpe.unk) ∧
        CovN bpe text marks n22
          (c.pos + bpe.tokenLen c.pair.1 + bpe.tokenLen c.pair.2) text.length ∧
        n = n1 + n22 + 2 := by
  obtain ⟨hu1, hu2, hum, hl1, hl2, hspan, hpiece⟩ := hc
  have hp1 : c.pos < text.length := by omega
  have hne1 : markTok marks c.pos ≠ bpe.unk := by rw [hv1]; exact hu1
  obtain ⟨n1, n2, hcov1, ⟨hm1pos, hm1unk, hm1seg, hm1le, hm1int⟩, hcov2, hn⟩ :=
    covN_locate hinv.cov (Nat.zero_le _) hp1 hne1
  rw [hv1] at hm1int hcov2
  have hp2 : c.pos + bpe.tokenLen c.pair.1 < text.length := by omega
  have hne2 : markTok marks (c.pos + bpe.tokenLen c.pair.1) ≠ bpe.unk := by
    rw [hv2]; exact hu2
  obtain ⟨m1, m2, hcovm, ⟨hm2pos, hm2unk, hm2seg, hm2le, hm2int⟩, hcov3, hn2⟩ :=
    covN_locate hcov2 (Nat.le_refl _) hp2 hne2
  have hm1z : m1 = 0 := covN_self hcovm
  rw [hv2] at hm2int hcov3
  refine ⟨n1, m2, hcov1, hm1int, ?_, ?_, by omega⟩
  · intro q hq1 hq2
    exact hm2int q hq1 (by omega)
  · have : c.pos + bpe.tokenLen c.pair.1 + bpe.tokenLen c.pair.2 =
        c.pos + bpe.tokenLen c.pair.1 + bpe.tokenLen c.pair.2 := rfl
    exact hcov3

/-- Specification of the right-neighbour half of the merge step: it does
not panic, the resulting marks differ from the input only at the three
touched fields, and everything it enqueues satisfies `CandOK`. -/
theorem mergeRight_spec {bpe : Bpe} {text : List Nat} {marks : List Mark}
    {queue rest : List Merge} {n : Nat} {c : Merge}
    (hWFu : bpe.unk ∉ bpe.sorted_pieces)
    (hinv : EncInv bpe text marks queue n) (hc : CandOK bpe text c)
    (hrest : ∀ x ∈ rest, CandOK bpe text x)
    (hv1 : markTok marks c.pos = c.pair.1)
    (hv2 : markTok marks (c.pos + bpe.tokenLen c.pair.1) = c.pair.2) :
    ∃ marksB queueB, mergeRight bpe text c marks rest = some (marksB, queueB) ∧
      (∀ x ∈ queueB, CandOK bpe text x) ∧
      marksB.length = marks.length ∧
      markTok marksB c.pos = c.merge ∧
      markTok marksB (c.pos + bpe.tokenLen c.pair.1) = bpe.unk ∧
      (∀ q, q ≠ c.pos → q ≠ c.pos + bpe.tokenLen c.pair.1 →
        markTok marksB q = markTok marks q) ∧
      (∀ q, q ≠ c.pos + bpe.tokenLen c.pair.1 + bpe.tokenLen c.pair.2 →
        markBack marksB q = markBack marks q) ∧
      (c.pos + bpe.tokenLen c.pair.1 + bpe.tokenLen c.pair.2 < text.length →
        markBack marksB (c.pos + bpe.tokenLen c.pair.1 + bpe.tokenLen c.pair.2) =
          bpe.tokenLen c.pair.1 + bpe.tokenLen c.pair.2) ∧
      (¬ c.pos + bpe.tokenLen c.pair.1 + bpe.tokenLen c.pair.2 < text.length →
        markBack marksB (c.pos + bpe.tokenLen c.pair.1 + bpe.tokenLen c.pair.2) =
          markBack marks (c.pos + bpe.tokenLen c.pair.1 + bpe.tokenLen c.pair.2)) := by
  obtain ⟨hu1, hu2, hum, hl1, hl2, hspan, hpiece⟩ := id hc
  obtain ⟨n1, n22, hcov1, hint1, hint2, hcov3, hn⟩ := valid_split hinv hc hv1 hv2
  have hlen := hinv.len_eq
  have hp1 : c.pos < marks.length := by omega
  have hp2 : c.pos + bpe.tokenLen c.pair.1 < marks.length := by omega
  have hmergeLen : bpe.tokenLen c.merge =
      bpe.tokenLen c.pair.1 + bpe.tokenLen c.pair.2 := candOK_mergeLen hc
  -- the marks after the two token writes
  have hlenA : (setTok (setTok marks c.pos c.merge)
      (c.pos + bpe.tokenLen c.pair.1) bpe.unk).length = marks.length := by
    rw [length_setTok, length_setTok]
  have hTokA1 : markTok (setTok (setTok marks c.pos c.merge)
      (c.pos + bpe.tokenLen c.pair.1) bpe.unk) c.pos = c.merge := by
    rw [markTok_setTok_ne (by omega), markTok_setTok_self hp1]
  have hTokA2 : markTok (setTok (setTok marks c.pos c.merge)
      (c.pos + bpe.tokenLen c.pair.1) bpe.unk)
      (c.pos + bpe.tokenLen c.pair.1) = bpe.unk := by
    rw [markTok_setTok_self]
    rw [length_setTok]
    exact hp2
  have hTokAo : ∀ q, q ≠ c.pos → q ≠ c.pos + bpe.tokenLen c.pair.1 →
      markTok (setTok (setTok marks c.pos c.merge)
        (c.pos + bpe.tokenLen c.pair.1) bpe.unk) q = markTok marks q := by
    intro q hq1 hq2
    rw [markTok_setTok_ne hq2, markTok_setTok_ne hq1]
  have hBackA : ∀ q, markBack (setTok (setTok marks c.pos c.merge)
      (c.pos + bpe.tokenLen c.pair.1) bpe.unk) q = markBack marks q := by
    intro q
    rw [markBack_setTok, markBack_setTok]
  unfold mergeRight
  dsimp only
  by_cases hp3 : c.pos + bpe.tokenLen c.pair.1 + bpe.tokenLen c.pair.2 <
      (setTok (setTok marks c.pos c.merge)
        (c.pos + bpe.tokenLen c.pair.1) bpe.unk).length
  · rw [if_pos hp3]
    rw [hlenA] at hp3
    -- the next live node after the span
    have hp3t : c.pos + bpe.tokenLen c.pair.1 + bpe.tokenLen c.pair.2 <
        text.length := by omega
    obtain ⟨n22', hn22, hunk3, hpos3, hseg3, hle3, hint3, htail3⟩ :=
      covN_head hcov3 hp3t
    set t3' := markTok marks
      (c.pos + bpe.tokenLen c.pair.1 + bpe.tokenLen c.pair.2) with ht3def
    · -- facts about the setBack'd marks
      have hlenB : (setBack (setTok (setTok marks c.pos c.merge)
          (c.pos + bpe.tokenLen c.pair.1) bpe.unk)
          (c.pos + bpe.tokenLen c.pair.1 + bpe.tokenLen c.pair.2)
          (bpe.tokenLen c.pair.1 + bpe.tokenLen c.pair.2)).length =
          marks.length := by
        rw [length_setBack, hlenA]
      have hTokB : ∀ q, markTok (setBack (setTok (setTok marks c.pos c.merge)
          (c.pos + bpe.tokenLen c.pair.1) bpe.unk)
          (c.pos + bpe.tokenLen c.pair.1 + bpe.tokenLen c.pair.2)
          (bpe.tokenLen c.pair.1 + bpe.tokenLen c.pair.2)) q =
          markTok (setTok (setTok marks c.pos c.merge)
            (c.pos + bpe.tokenLen c.pair.1) bpe.unk) q := by
        intro q
        rw [markTok_setBack]
      have ht3 : markTok (setBack (setTok (setTok marks c.pos c.merge)
          (c.pos + bpe.tokenLen c.pair.1) bpe.unk)
          (c.pos + bpe.tokenLen c.pair.1 + bpe.tokenLen c.pair.2)
          (bpe.tokenLen c.pair.1 + bpe.tokenLen c.pair.2))
          (c.pos + bpe.tokenLen c.pair.1 + bpe.tokenLen c.pair.2) = t3' := by
        rw [hTokB, hTokAo _ (by omega) (by omega)]
      rw [ht3]
      have hp4 : c.pos + bpe.tokenLen c.pair.1 + bpe.tokenLen c.pair.2 +
          bpe.tokenLen t3' ≤ text.length := hle3
      rw [if_pos hp4]
      have hqOK : ∀ m2, bpe.buildMerge text c.pos
          (c.pos + bpe.tokenLen c.pair.1 + bpe.tokenLen c.pair.2 +
            bpe.tokenLen t3') (c.merge, t3') = some m2 → CandOK bpe text m2 := by
        intro m2 hbm
        have hlm : 0 < bpe.tokenLen c.merge := by omega
        have heq : c.pos + bpe.tokenLen c.merge + bpe.tokenLen t3' =
            c.pos + bpe.tokenLen c.pair.1 + bpe.tokenLen c.pair.2 +
              bpe.tokenLen t3' := by omega
        exact buildMerge_candOK hWFu hbm hp4 heq hum hunk3 hlm hpos3
      rcases hbm : bpe.buildMerge text c.pos
          (c.pos + bpe.tokenLen c.pair.1 + bpe.tokenLen c.pair.2 +
            bpe.tokenLen t3') (c.merge, t3') with _ | m2
      · refine ⟨_, rest, ?_, hrest, hlenB, ?_, ?_, ?_, ?_, ?_, ?_⟩
        · simp only [hbm]
        · rw [hTokB, hTokA1]
        · rw [hTokB, hTokA2]
        · intro q hq1 hq2
          rw [hTokB, hTokAo q hq1 hq2]
        · intro q hq
          rw [markBack_setBack_ne hq, hBackA]
        · intro _
          rw [markBack_setBack_self]
          rw [hlenA]
          omega
        · intro hcon
          omega
      · refine ⟨_, m2 :: rest, ?_, ?_, hlenB, ?_, ?_, ?_, ?_, ?_, ?_⟩
        · simp only [hbm]
        · intro x hx
          rcases List.mem_cons.mp hx with h' | h'
          · exact h' ▸ hqOK m2 hbm
          · exact hrest x h'
        · rw [hTokB, hTokA1]
        · rw [hTokB, hTokA2]
        · intro q hq1 hq2
          rw [hTokB, hTokAo q hq1 hq2]
        · intro q hq
          rw [markBack_setBack_ne hq, hBackA]
        · intro _
          rw [markBack_setBack_self]
          rw [hlenA]
          omega
        · intro hcon
          omega
  · rw [if_neg hp3]
    rw [hlenA] at hp3
    refine ⟨_, _, rfl, hrest, hlenA, hTokA1, hTokA2, hTokAo, ?_, ?_, ?_⟩
    · intro q _
      exact hBackA q
    · intro hcon
      omega
    · intro _
      exact hBackA _


/-- Specification of the left-neighbour half of the merge step: under the
back-distance invariant of the pre-merge marks it does not panic, leaves
the marks as given, and anything it enqueues satisfies `CandOK`. -/
theorem mergeLeft_spec {bpe : Bpe} {text : List Nat} {marks marksB : List Mark}
    {queue queueB : List Merge} {n : Nat} {c : Merge}
    (hWFu : bpe.unk ∉ bpe.sorted_pieces)
    (hinv : EncInv bpe text marks queue n) (hc : CandOK bpe text c)
    (hv1 : markTok marks c.pos = c.pair.1)
    (hQB : ∀ x ∈ queueB, CandOK bpe text x)
    (hTokO : ∀ q, q ≠ c.pos → q ≠ c.pos + bpe.tokenLen c.pair.1 →
      markTok marksB q = markTok marks q)
    (hBackO : ∀ q, q ≠ c.pos + bpe.tokenLen c.pair.1 + bpe.tokenLen c.pair.2 →
      markBack marksB q = markBack marks q) :
    ∃ queueL, mergeLeft bpe text c marksB queueB = some (marksB, queueL) ∧
      ∀ x ∈ queueL, CandOK bpe text x := by
  obtain ⟨hu1, hu2, hum, hl1, hl2, hspan, hpiece⟩ := id hc
  have hmergeLen : bpe.tokenLen c.merge =
      bpe.tokenLen c.pair.1 + bpe.tokenLen c.pair.2 := candOK_mergeLen hc
  have hBp1 : markBack marksB c.pos = markBack marks c.pos :=
    hBackO c.pos (by omega)
  unfold mergeLeft
  dsimp only
  by_cases hb0 : markBack marksB c.pos = 0
  · rw [if_pos hb0]
    exact ⟨queueB, rfl, hQB⟩
  · -- the back distance is nonzero: the old invariant locates the left
    -- live neighbour
    rw [if_neg hb0]
    rw [hBp1] at hb0
    have hbd := hinv.bd c.pos (by omega) (by rw [hv1]; exact hu1)
      (Nat.pos_of_ne_zero hb0)
    obtain ⟨hd1, hd2, hd3⟩ := hbd
    rw [if_pos ⟨by rw [hBp1]; exact hd1, by omega⟩]
    rw [hBp1]
    have ht0eq : markTok marksB (c.pos - markBack marks c.pos) =
        markTok marks (c.pos - markBack marks c.pos) :=
      hTokO _ (by omega) (by omega)
    have ht0len : bpe.tokenLen (markTok marksB (c.pos - markBack marks c.pos)) =
        markBack marks c.pos := by
      rw [ht0eq]
      exact hd3
    have ht0unk : markTok marksB (c.pos - markBack marks c.pos) ≠ bpe.unk := by
      rw [ht0eq]
      exact hd2
    rcases hbm : bpe.buildMerge text (c.pos - markBack marks c.pos)
        (c.pos + bpe.tokenLen c.pair.1 + bpe.tokenLen c.pair.2)
        (markTok marksB (c.pos - markBack marks c.pos), c.merge) with _ | m3
    · exact ⟨queueB, rfl, hQB⟩
    · refine ⟨m3 :: queueB, rfl, ?_⟩
      intro x hx
      rcases List.mem_cons.mp hx with hx1 | hx1
      · subst hx1
        refine buildMerge_candOK hWFu hbm (by omega) ?_ ht0unk hum ?_ ?_
        · show c.pos - markBack marks c.pos +
            bpe.tokenLen (markTok marksB (c.pos - markBack marks c.pos)) +
            bpe.tokenLen c.merge = _
          omega
        · show 0 < bpe.tokenLen (markTok marksB (c.pos - markBack marks c.pos))
          omega
        · show 0 < bpe.tokenLen c.merge
          omega
      · exact hQB x hx1


/-- The merge step applied to a valid candidate never panics, decreases
the live-token count by exactly one and preserves the whole invariant. -/
theorem mergeApply_spec {bpe : Bpe} {text : List Nat} {marks : List Mark}
    {queue rest : List Merge} {n : Nat} {c : Merge}
    (hWFu : bpe.unk ∉ bpe.sorted_pieces)
    (hinv : EncInv bpe text marks queue n) (hc : CandOK bpe text c)
    (hrest : ∀ x ∈ rest, CandOK bpe text x)
    (hv1 : markTok marks c.pos = c.pair.1)
    (hv2 : markTok marks (c.pos + bpe.tokenLen c.pair.1) = c.pair.2) :
    ∃ marksB queueL n',
      mergeApply bpe text c marks rest = some (marksB, queueL) ∧
        n = n' + 1 ∧ EncInv bpe text marksB queueL n' := by
  obtain ⟨hu1, hu2, hum, hl1, hl2, hspan, hpiece⟩ := id hc
  have hmergeLen : bpe.tokenLen c.merge =
      bpe.tokenLen c.pair.1 + bpe.tokenLen c.pair.2 := candOK_mergeLen hc
  obtain ⟨n1, n22, hcov1, hint1, hint2, hcov3, hn⟩ := valid_split hinv hc hv1 hv2
  obtain ⟨marksB, queueB, hR, hQB, hlenB, hB1, hB2, hBo, hBk, hBk3, hBk3n⟩ :=
    mergeRight_spec hWFu hinv hc hrest hv1 hv2
  obtain ⟨queueL, hL, hQL⟩ := mergeLeft_spec hWFu hinv hc hv1 hQB hBo hBk
  refine ⟨marksB, queueL, n1 + n22 + 1, ?_, by omega, ?_⟩
  · unfold mergeApply
    rw [hR]
    exact hL
  constructor
  · rw [hlenB]
    exact hinv.len_eq
  · -- the new chain: prefix, merged node, tail
    have hpre : CovN bpe text marksB n1 0 c.pos := by
      refine covN_frame hcov1 ?_
      intro q _ hq2
      exact hBo q (by omega) (by omega)
    have htail : CovN bpe text marksB n22
        (c.pos + bpe.tokenLen c.pair.1 + bpe.tokenLen c.pair.2) text.length := by
      refine covN_frame hcov3 ?_
      intro q hq1 _
      exact hBo q (by omega) (by omega)
    have hnode : CovN bpe text marksB (n22 + 1) c.pos text.length := by
      refine CovN.cons _ _ _ c.merge hB1 hum (by omega) ?_ (by omega) ?_ ?_
      · rw [hmergeLen]
        exact hpiece.symm
      · intro q hq1 hq2
        rw [hmergeLen] at hq2
        by_cases hq : q = c.pos + bpe.tokenLen c.pair.1
        · rw [hq]
          exact hB2
        · rw [hBo q (by omega) hq]
          by_cases hq' : q < c.pos + bpe.tokenLen c.pair.1
          · exact hint1 q hq1 hq'
          · exact hint2 q (by omega) (by omega)
      · rw [hmergeLen, ← Nat.add_assoc]
        exact htail
    have := covN_trans hpre hnode
    have heq : n1 + (n22 + 1) = n1 + n22 + 1 := by omega
    rw [heq] at this
    exact this
  · -- position 0 still has back distance 0
    rw [hBk 0 (by omega)]
    exact hinv.bd0
  · -- the back-distance invariant
    intro p hp hptok hpback
    by_cases hp3case : p = c.pos + bpe.tokenLen c.pair.1 + bpe.tokenLen c.pair.2
    · -- the updated back pointer at p3 points at the merged token
      subst hp3case
      have hbv : markBack marksB
          (c.pos + bpe.tokenLen c.pair.1 + bpe.tokenLen c.pair.2) =
          bpe.tokenLen c.pair.1 + bpe.tokenLen c.pair.2 := hBk3 hp
      rw [hbv]
      have hsub : c.pos + bpe.tokenLen c.pair.1 + bpe.tokenLen c.pair.2 -
          (bpe.tokenLen c.pair.1 + bpe.tokenLen c.pair.2) = c.pos := by omega
      rw [hsub]
      refine ⟨by omega, ?_, ?_⟩
      · rw [hB1]
        exact hum
      · rw [hB1]
        omega
    · have hbeq : markBack marksB p = markBack marks p := hBk p hp3case
      have hpne2 : p ≠ c.pos + bpe.tokenLen c.pair.1 := by
        intro h
        apply hptok
        rw [h]
        exact hB2
      rw [hbeq] at hpback ⊢
      by_cases hpne1 : p = c.pos
      · -- the merged position keeps its back pointer, whose target is
        -- untouched
        obtain ⟨hd1, hd2, hd3⟩ :=
          hinv.bd p hp (by rw [hpne1, hv1]; exact hu1) hpback
        refine ⟨hd1, ?_, ?_⟩
        · rw [hBo _ (by omega) (by omega)]
          exact hd2
        · rw [hBo _ (by omega) (by omega)]
          exact hd3
      · -- untouched positions: the old invariant transfers unless the
        -- target's token length would land on the killed positions
        have hptokO : markTok marks p ≠ bpe.unk := by
          rw [← hBo p hpne1 hpne2]
          exact hptok
        obtain ⟨hd1, hd2, hd3⟩ := hinv.bd p hp hptokO hpback
        have htgt1 : p - markBack marks p ≠ c.pos := by
          intro h
          apply hpne2
          have : bpe.tokenLen (markTok marks (p - markBack marks p)) =
              markBack marks p := hd3
          rw [h, hv1] at this
          omega
        have htgt2 : p - markBack marks p ≠ c.pos + bpe.tokenLen c.pair.1 := by
          intro h
          apply hp3case
          have : bpe.tokenLen (markTok marks (p - markBack marks p)) =
              markBack marks p := hd3
          rw [h, hv2] at this
          omega
        refine ⟨hd1, ?_, ?_⟩
        · rw [hBo _ htgt1 htgt2]
          exact hd2
        · rw [hBo _ htgt1 htgt2]
          exact hd3
  · exact hQL


theorem get?_eq_markEntry {marks : List Mark} {p : Nat} (h : p < marks.length) :
    marks.get? p = some (markEntry marks p) := by
  rw [List.get?_eq_getElem?, List.getElem?_eq_getElem h]
  simp [markEntry, List.getD_eq_getElem?_getD, List.getElem?_eq_getElem h]

/-- One popped candidate is either discarded as stale (no state change)
or applied with the invariant preserved and the live count decremented. -/
theorem processCand_spec {bpe : Bpe} {text : List Nat} {marks : List Mark}
    {queue rest : List Merge} {n : Nat} {c : Merge}
    (hWFu : bpe.unk ∉ bpe.sorted_pieces)
    (hinv : EncInv bpe text marks queue n) (hc : CandOK bpe text c)
    (hrest : ∀ x ∈ rest, CandOK bpe text x) :
    processCand bpe text marks c rest = some none ∨
      (∃ marksB queueL n',
        processCand bpe text marks c rest = some (some (marksB, queueL)) ∧
          n = n' + 1 ∧ EncInv bpe text marksB queueL n') := by
  obtain ⟨hu1, hu2, hum, hl1, hl2, hspan, hpiece⟩ := id hc
  have hlen := hinv.len_eq
  have hp1 : c.pos < marks.length := by omega
  have hp2 : c.pos + bpe.tokenLen c.pair.1 < marks.length := by omega
  unfold processCand
  rw [if_pos hp1]
  by_cases h1 : markTok marks c.pos = c.pair.1
  · rw [if_pos h1, if_pos hp2]
    by_cases h2 : markTok marks (c.pos + bpe.tokenLen c.pair.1) = c.pair.2
    · rw [if_pos h2]
      obtain ⟨marksB, queueL, n', hap, hn, hinv'⟩ :=
        mergeApply_spec hWFu hinv hc hrest h1 h2
      right
      refine ⟨marksB, queueL, n', ?_, hn, hinv'⟩
      rw [hap]
      rfl
    · rw [if_neg h2]
      exact Or.inl rfl
  · rw [if_neg h1]
    exact Or.inl rfl

/-- `MergeState::merge` with enough fuel to drain the queue: it either
reports `false` leaving the marks untouched, or applies one merge
preserving the invariant. -/
theorem mergeRun_spec {bpe : Bpe} {text : List Nat}
    (hWFu : bpe.unk ∉ bpe.sorted_pieces) :
    ∀ (fuel : Nat) (queue : List Merge) (marks : List Mark) (n : Nat),
      EncInv bpe text marks queue n → queue.length < fuel →
      mergeRun bpe text fuel marks queue = some (false, marks, []) ∨
        (∃ marksB queueL n',
          mergeRun bpe text fuel marks queue = some (true, marksB, queueL) ∧
            n = n' + 1 ∧ EncInv bpe text marksB queueL n') := by
  intro fuel
  induction fuel with
  | zero =>
    intro queue marks n _ hf
    omega
  | succ fuel ih =>
    intro queue marks n hinv hf
    unfold mergeRun
    rcases hpop : popBest queue with _ | ⟨c, rest⟩
    · exact Or.inl rfl
    · have hc : CandOK bpe text c := hinv.qinv c (popBest_mem hpop)
      have hrest : ∀ x ∈ rest, CandOK bpe text x := fun x hx =>
        hinv.qinv x (popBest_rest_mem hpop x hx)
      have hinvr : EncInv bpe text marks rest n :=
        ⟨hinv.len_eq, hinv.cov, hinv.bd0, hinv.bd, hrest⟩
      rcases processCand_spec hWFu hinv hc hrest with hdisc | hap
      · simp only [hdisc]
        have hfl : rest.length < fuel := by
          have := popBest_length hpop
          omega
        rcases ih rest marks n hinvr hfl with h' | h'
        · exact Or.inl h'
        · obtain ⟨marksB, queueL, n', hrun, hn, hinv'⟩ := h'
          exact Or.inr ⟨marksB, queueL, n', hrun, hn, hinv'⟩
      · obtain ⟨marksB, queueL, n', hps, hn, hinv'⟩ := hap
        simp only [hps]
        exact Or.inr ⟨marksB, queueL, n', rfl, hn, hinv'⟩

/-- The merge loop terminates within `n + 1` iterations (`n` = number of
live tokens), never panics, and its result still covers the text. -/
theorem mergeLoop_spec {bpe : Bpe} {text : List Nat}
    (hWFu : bpe.unk ∉ bpe.sorted_pieces) :
    ∀ (fuel n : Nat) (marks : List Mark) (queue : List Merge),
      EncInv bpe text marks queue n → n < fuel →
      ∃ marksF nF, mergeLoop bpe text fuel marks queue = some marksF ∧
        EncInv bpe text marksF [] nF ∧ nF ≤ n := by
  intro fuel
  induction fuel with
  | zero =>
    intro n marks queue _ hf
    omega
  | succ fuel ih =>
    intro n marks queue hinv hf
    unfold mergeLoop
    rcases mergeRun_spec hWFu (queue.length + 1) queue marks n hinv
        (Nat.lt_succ_self _) with h' | h'
    · rw [h']
      exact ⟨marks, n, rfl, ⟨hinv.len_eq, hinv.cov, hinv.bd0, hinv.bd,
        by intro x hx; simp at hx⟩, Nat.le_refl _⟩
    · obtain ⟨marksB, queueL, n', hrun, hn, hinv'⟩ := h'
      rw [hrun]
      obtain ⟨marksF, nF, hloop, hinvF, hle⟩ :=
        ih n' marksB queueL hinv' (by omega)
      exact ⟨marksF, nF, hloop, hinvF, by omega⟩

theorem decodeTok_of_pos {bpe : Bpe} {t : utok} (h : 0 < bpe.tokenLen t) :
    bpe.decodeTok t = some (bpe.pieceOf t) := by
  unfold Bpe.decodeTok
  unfold Bpe.tokenLen Bpe.pieceOf Bpe.token at *
  rcases hg : bpe.tokens[t]? with _ | meta
  · rw [List.getD_eq_getElem?_getD, hg] at h
    simp at h
  · rw [List.getD_eq_getElem?_getD, hg]
    rw [List.get?_eq_getElem?, hg]
    rfl

/-- Emitting from a chain succeeds with exactly the chain's tokens, and
decoding them yields the covered text bytes. -/
theorem emitFrom_spec {bpe : Bpe} {text : List Nat} {marks : List Mark}
    {n p e : Nat} (h : CovN bpe text marks n p e)
    (hlen : marks.length = text.length) :
    e = text.length → ∀ fuel, n ≤ fuel →
      ∃ ts, emitFrom bpe marks fuel p = some ts ∧
        decodeSeq bpe ts = some (text.drop p) := by
  induction h with
  | nil p0 =>
    intro he fuel _
    refine ⟨[], ?_, ?_⟩
    · cases fuel with
      | zero =>
        unfold emitFrom
        rw [if_pos (by omega)]
      | succ f =>
        unfold emitFrom
        rw [if_neg (by omega), if_pos (by omega)]
    · unfold decodeSeq
      simp [List.drop_eq_nil_of_le (by omega : text.length ≤ p0)]
  | cons n q e t htok hunk hpos hseg hle hint htail ih =>
    intro he fuel hfuel
    cases fuel with
    | zero => omega
    | succ f =>
      obtain ⟨ts, hemit, hdec⟩ := ih he f (by omega)
      refine ⟨t :: ts, ?_, ?_⟩
      · unfold emitFrom
        rw [if_pos (by omega)]
        rw [htok]
        show Option.map (fun l => t :: l)
          (emitFrom bpe marks f (q + bpe.tokenLen t)) = some (t :: ts)
        rw [hemit]
        rfl
      · have hstep : decodeSeq bpe (t :: ts) =
            match bpe.decodeTok t, decodeSeq bpe ts with
            | some pc, some a => some (pc ++ a)
            | _, _ => none := rfl
        rw [hstep, decodeTok_of_pos hpos, hdec]
        show some (bpe.pieceOf t ++ List.drop (q + bpe.tokenLen t) text) =
          some (List.drop q text)
        rw [← hseg, ← drop_eq_seg_append]


/-! ### Establishing the invariant in `begin_merge` -/

theorem setByteToks_spec (bpe : Bpe) :
    ∀ (c : List Nat) (marks : List Mark) (i : Nat),
      (setByteToks bpe marks i c).length = marks.length ∧
      (∀ q, q < i ∨ i + c.length ≤ q →
        markEntry (setByteToks bpe marks i c) q = markEntry marks q) ∧
      (∀ q, markBack (setByteToks bpe marks i c) q = markBack marks q) ∧
      (∀ k, (hk : k < c.length) → i + k < marks.length →
        markTok (setByteToks bpe marks i c) (i + k) = bpe.bytes (c.get ⟨k, hk⟩)) := by
  intro c
  induction c with
  | nil =>
    intro marks i
    refine ⟨rfl, fun q _ => rfl, fun q => rfl, ?_⟩
    intro k hk
    simp at hk
  | cons b bs ih =>
    intro marks i
    obtain ⟨ihl, ihe, ihb, iht⟩ := ih (setTok marks i (bpe.bytes b)) (i + 1)
    refine ⟨?_, ?_, ?_, ?_⟩
    · show (setByteToks bpe (setTok marks i (bpe.bytes b)) (i + 1) bs).length = _
      rw [ihl, length_setTok]
    · intro q hq
      show markEntry (setByteToks bpe (setTok marks i (bpe.bytes b)) (i + 1) bs) q = _
      rw [ihe q (by simp at hq; omega)]
      unfold setTok
      exact markEntry_set_ne (by simp at hq; omega) _
    · intro q
      show markBack (setByteToks bpe (setTok marks i (bpe.bytes b)) (i + 1) bs) q = _
      rw [ihb q, markBack_setTok]
    · intro k hk hilen
      show markTok (setByteToks bpe (setTok marks i (bpe.bytes b)) (i + 1) bs) (i + k) = _
      cases k with
      | zero =>
        have : markEntry (setByteToks bpe (setTok marks i (bpe.bytes b)) (i + 1) bs)
            (i + 0) = markEntry (setTok marks i (bpe.bytes b)) (i + 0) :=
          ihe (i + 0) (by omega)
        unfold markTok
        rw [this]
        show (markEntry (setTok marks i (bpe.bytes b)) i).token = _
        have := @markTok_setTok_self marks i (by omega) (bpe.bytes b)
        unfold markTok at this
        rw [this]
        rfl
      | succ k' =>
        have heq : i + (k' + 1) = (i + 1) + k' := by omega
        rw [heq]
        rw [iht k' (by simp at hk; omega) (by rw [length_setTok]; omega)]
        rfl

/-- After the byte-fallback writes, the freshly written positions form a
chain of single-byte tokens. -/
theorem covN_bytes {bpe : Bpe} {text : List Nat}
    (hWFb : ∀ b, bpe.bytes b = bpe.unk ∨ bpe.pieceOf (bpe.bytes b) = [b]) :
    ∀ (c : List Nat) (marks' : List Mark) (i : Nat),
      seg text i c.length = c → i + c.length ≤ text.length →
      (∀ k, (hk : k < c.length) → markTok marks' (i + k) = bpe.bytes (c.get ⟨k, hk⟩)) →
      (∀ b ∈ c, bpe.bytes b ≠ bpe.unk) →
      CovN bpe text marks' c.length i (i + c.length) := by
  intro c
  induction c with
  | nil =>
    intro marks' i _ _ _ _
    exact CovN.nil i
  | cons b bs ih =>
    intro marks' i hseg hil htoks hbytes
    have hb : bpe.bytes b ≠ bpe.unk := hbytes b (List.mem_cons_self _ _)
    have hpb : bpe.pieceOf (bpe.bytes b) = [b] := by
      rcases hWFb b with h | h
      · exact absurd h hb
      · exact h
    have hlb : bpe.tokenLen (bpe.bytes b) = 1 := by
      simp [Bpe.tokenLen, hpb]
    have hsegsplit : seg text i 1 = [b] ∧ seg text (i + 1) bs.length = bs := by
      have h1 : (1 : Nat) + bs.length = bs.length + 1 := by omega
      have h2 := @seg_append text i 1 bs.length
      rw [h1] at h2
      rw [show bs.length + 1 = (b :: bs).length from rfl, hseg] at h2
      have hl1 : (seg text i 1).length = 1 :=
        seg_length_of_le (by simp at hil ⊢; omega)
      rcases hsg : seg text i 1 with _ | ⟨x, xs⟩
      · rw [hsg] at hl1
        simp at hl1
      · rw [hsg] at hl1 h2
        simp at hl1
        subst hl1
        simp at h2
        exact ⟨by rw [← h2.1], h2.2.symm⟩
    have htok0 : markTok marks' i = bpe.bytes b := by
      have := htoks 0 (by simp)
      simpa using this
    have htail : CovN bpe text marks' bs.length (i + 1) (i + 1 + bs.length) := by
      refine ih marks' (i + 1) hsegsplit.2 (by simp at hil; omega) ?_ ?_
      · intro k hk
        have := htoks (k + 1) (by simp; omega)
        rw [show i + 1 + k = i + (k + 1) by omega]
        rw [this]
        rfl
      · intro x hx
        exact hbytes x (List.mem_cons_of_mem _ hx)
    have hnode : CovN bpe text marks' (bs.length + 1) i (i + 1 + bs.length) := by
      refine CovN.cons _ _ _ (bpe.bytes b) htok0 hb (by omega) ?_ ?_ ?_ ?_
      · rw [hlb, hpb]
        exact hsegsplit.1
      · rw [hlb]
        simp at hil
        omega
      · intro q hq1 hq2
        rw [hlb] at hq2
        omega
      · rw [hlb]
        exact htail
    have hfin : i + (b :: bs).length = i + 1 + bs.length := by
      simp only [List.length_cons]
      omega
    rw [hfin]
    exact hnode


/-- The invariant carried through `begin_merge`'s character loop. -/
structure BMInv (bpe : Bpe) (text : List Nat) (s : BMState) : Prop where
  ilen : s.i ≤ text.length
  mlen : s.marks.length = text.length
  beyond : ∀ q, s.i ≤ q → q < text.length → markEntry s.marks q = ⟨bpe.unk, 0⟩
  chain : ∃ n, CovN bpe text s.marks n 0 s.i
  lastOK : ∀ p, s.last = some p → p < s.i ∧
    markTok s.marks p ≠ bpe.unk ∧ bpe.tokenLen (markTok s.marks p) = s.i - p
  bd0 : markBack s.marks 0 = 0
  bd : ∀ p, p < text.length → markTok s.marks p ≠ bpe.unk →
    0 < markBack s.marks p →
    markBack s.marks p ≤ p ∧
      markTok s.marks (p - markBack s.marks p) ≠ bpe.unk ∧
      bpe.tokenLen (markTok s.marks (p - markBack s.marks p)) = markBack s.marks p
  qinv : ∀ c ∈ s.merges, CandOK bpe text c


/-- One `begin_merge` iteration preserves the invariant and advances the
offset by the character's byte length. -/
theorem beginMergeStep_inv {bpe : Bpe} {text : List Nat} {s : BMState}
    {c rest : List Nat}
    (hWFu : bpe.unk ∉ bpe.sorted_pieces)
    (hWFb : ∀ b, bpe.bytes b = bpe.unk ∨ bpe.pieceOf (bpe.bytes b) = [b])
    (hinv : BMInv bpe text s)
    (halign : text.drop s.i = c ++ rest)
    (hcne : c ≠ [])
    (hrep1 : bpe.findPiece c ≠ some bpe.unk)
    (hrep2 : bpe.findPiece c = none → ∀ b ∈ c, bpe.bytes b ≠ bpe.unk) :
    BMInv bpe text (beginMergeStep bpe text s c) ∧
      (beginMergeStep bpe text s c).i = s.i + c.length ∧
      text.drop (s.i + c.length) = rest := by
  have hclen : 0 < c.length := List.length_pos.mpr hcne
  have hdl : (text.drop s.i).length = text.length - s.i := List.length_drop _ _
  have hiright : s.i + c.length ≤ text.length := by
    rw [halign] at hdl
    simp at hdl
    have := hinv.ilen
    omega
  have hirange : s.i < text.length := by omega
  have hsegc : seg text s.i c.length = c := by
    unfold seg
    rw [halign]
    exact List.take_left c rest
  have hdropnext : text.drop (s.i + c.length) = rest := by
    have h1 : text.drop (s.i + c.length) = (text.drop s.i).drop c.length := by
      rw [List.drop_drop]
    rw [h1, halign]
    exact List.drop_left c rest
  have hmlen := hinv.mlen
  rcases hfp : bpe.findPiece c with _ | t
  -- byte-fallback branch
  · have hbytes : ∀ b ∈ c, bpe.bytes b ≠ bpe.unk := hrep2 hfp
    obtain ⟨hsl, hse, hsb, hst⟩ := setByteToks_spec bpe c s.marks s.i
    have hIlen : s.i + c.length ≤ text.length := hiright
    have hMlen : (setByteToks bpe s.marks s.i c).length = text.length := by
      rw [hsl]
      exact hmlen
    have hBeyond : ∀ q, s.i + c.length ≤ q → q < text.length →
        markEntry (setByteToks bpe s.marks s.i c) q = ⟨bpe.unk, 0⟩ := by
      intro q hq1 hq2
      rw [hse q (Or.inr hq1)]
      exact hinv.beyond q (by omega) hq2
    have hChain : ∃ n, CovN bpe text (setByteToks bpe s.marks s.i c) n 0
        (s.i + c.length) := by
      obtain ⟨n0, hcov0⟩ := hinv.chain
      have htoksOK : ∀ k, (hk : k < c.length) →
          markTok (setByteToks bpe s.marks s.i c) (s.i + k) =
          bpe.bytes (c.get ⟨k, hk⟩) := by
        intro k hk
        exact hst k hk (by omega)
      have hsegchain := covN_bytes hWFb c (setByteToks bpe s.marks s.i c) s.i
        hsegc hiright htoksOK hbytes
      refine ⟨n0 + c.length, covN_trans ?_ hsegchain⟩
      refine covN_frame hcov0 ?_
      intro q _ hq2
      unfold markTok
      rw [hse q (Or.inl hq2)]
    have hLast : ∀ p : Nat, (none : Option Nat) = some p →
        p < s.i + c.length ∧
        markTok (setByteToks bpe s.marks s.i c) p ≠ bpe.unk ∧
        bpe.tokenLen (markTok (setByteToks bpe s.marks s.i c) p) =
          s.i + c.length - p := by
      intro p hp
      cases hp
    have hBd0 : markBack (setByteToks bpe s.marks s.i c) 0 = 0 := by
      rw [hsb]
      exact hinv.bd0
    have hBd : ∀ p, p < text.length →
        markTok (setByteToks bpe s.marks s.i c) p ≠ bpe.unk →
        0 < markBack (setByteToks bpe s.marks s.i c) p →
        markBack (setByteToks bpe s.marks s.i c) p ≤ p ∧
          markTok (setByteToks bpe s.marks s.i c)
            (p - markBack (setByteToks bpe s.marks s.i c) p) ≠ bpe.unk ∧
          bpe.tokenLen (markTok (setByteToks bpe s.marks s.i c)
            (p - markBack (setByteToks bpe s.marks s.i c) p)) =
            markBack (setByteToks bpe s.marks s.i c) p := by
      intro p hp htokp hbackp
      rw [hsb] at hbackp ⊢
      by_cases hplo : p < s.i
      · have htokp2 : markTok s.marks p ≠ bpe.unk := by
          unfold markTok at htokp ⊢
          rw [hse p (Or.inl hplo)] at htokp
          exact htokp
        obtain ⟨hd1, hd2, hd3⟩ := hinv.bd p hp htokp2 hbackp
        have htgtlo : p - markBack s.marks p < s.i := by omega
        refine ⟨hd1, ?_, ?_⟩
        · unfold markTok
          rw [hse _ (Or.inl htgtlo)]
          exact hd2
        · unfold markTok
          rw [hse _ (Or.inl htgtlo)]
          exact hd3
      · exfalso
        by_cases hphi : s.i + c.length ≤ p
        · apply htokp
          unfold markTok
          rw [hse p (Or.inr hphi)]
          have hb := hinv.beyond p (by omega) hp
          unfold markEntry at hb ⊢
          rw [hb]
        · have hb := hinv.beyond p (by omega) hp
          unfold markBack markEntry at hbackp
          unfold markEntry at hb
          rw [hb] at hbackp
          simp at hbackp
    have hQinv : ∀ c' ∈ s.merges, CandOK bpe text c' := hinv.qinv
    refine ⟨?_, ?_, hdropnext⟩
    · unfold beginMergeStep
      simp only [hfp]
      exact ⟨hIlen, hMlen, hBeyond, hChain, hLast, hBd0, hBd, hQinv⟩
    · unfold beginMergeStep
      simp only [hfp]
  -- piece-match branch
  · have htunk : t ≠ bpe.unk := by
      intro h
      exact hrep1 (h ▸ hfp)
    have hpt : bpe.pieceOf t = c := by
      rcases findPiece_spec hfp with h | ⟨b, hb, hbt⟩
      · exact h.2
      · subst hb
        subst hbt
        rcases hWFb b with h | h
        · exact absurd h htunk
        · exact h
    have hlt : bpe.tokenLen t = c.length := by
      unfold Bpe.tokenLen
      rw [hpt]
    have hT1 : markTok (setTok s.marks s.i t) s.i = t :=
      markTok_setTok_self (by omega) t
    have hTo : ∀ q, q ≠ s.i → markTok (setTok s.marks s.i t) q = markTok s.marks q :=
      fun q hq => markTok_setTok_ne hq t
    have hTlen : (setTok s.marks s.i t).length = text.length := by
      rw [length_setTok]
      exact hmlen
    have hTb : ∀ q, markBack (setTok s.marks s.i t) q = markBack s.marks q :=
      fun q => markBack_setTok _ _ _ _
    obtain ⟨n0, hcov0⟩ := hinv.chain
    have hcovF : CovN bpe text (setTok s.marks s.i t) n0 0 s.i := by
      refine covN_frame hcov0 ?_
      intro q _ hq2
      exact hTo q (by omega)
    have hnode : CovN bpe text (setTok s.marks s.i t) 1 s.i (s.i + c.length) := by
      refine CovN.cons 0 s.i (s.i + c.length) t hT1 htunk (by omega)
        (by rw [hlt, hsegc, hpt]) (by rw [hlt]; omega) ?_ (by rw [hlt]; exact CovN.nil _)
      intro q hq1 hq2
      rw [hlt] at hq2
      rw [hTo q (by omega)]
      have hb := hinv.beyond q (by omega) (by omega)
      unfold markTok markEntry at hb ⊢
      rw [hb]
    have hchainAll : CovN bpe text (setTok s.marks s.i t) (n0 + 1) 0
        (s.i + c.length) := covN_trans hcovF hnode
    have hbdT : ∀ p, p < text.length → markTok (setTok s.marks s.i t) p ≠ bpe.unk →
        0 < markBack (setTok s.marks s.i t) p →
        markBack (setTok s.marks s.i t) p ≤ p ∧
          markTok (setTok s.marks s.i t)
            (p - markBack (setTok s.marks s.i t) p) ≠ bpe.unk ∧
          bpe.tokenLen (markTok (setTok s.marks s.i t)
            (p - markBack (setTok s.marks s.i t) p)) =
            markBack (setTok s.marks s.i t) p := by
      intro p hp htokp hbackp
      rw [hTb] at hbackp ⊢
      by_cases hpi : p = s.i
      · exfalso
        have hb := hinv.beyond p (by omega) hp
        unfold markBack markEntry at hbackp
        unfold markEntry at hb
        rw [hb] at hbackp
        simp at hbackp
      · have htokp2 : markTok s.marks p ≠ bpe.unk := by
          rw [← hTo p hpi]
          exact htokp
        obtain ⟨hd1, hd2, hd3⟩ := hinv.bd p hp htokp2 hbackp
        have htgti : p - markBack s.marks p ≠ s.i := by
          intro h
          apply hd2
          have hb := hinv.beyond (p - markBack s.marks p) (by omega) (by omega)
          unfold markTok markEntry at hd2 ⊢
          unfold markEntry at hb
          rw [h] at hb ⊢
          rw [hb]
        refine ⟨hd1, ?_, ?_⟩
        · rw [hTo _ htgti]
          exact hd2
        · rw [hTo _ htgti]
          exact hd3
    unfold beginMergeStep
    simp only [hfp]
    rcases hlast : s.last with _ | p
    -- no previous character: just the token write
    · have hLast : ∀ p' : Nat, (some s.i : Option Nat) = some p' →
          p' < s.i + c.length ∧
          markTok (setTok s.marks s.i t) p' ≠ bpe.unk ∧
          bpe.tokenLen (markTok (setTok s.marks s.i t) p') =
            s.i + c.length - p' := by
        intro p' hp'
        cases hp'
        refine ⟨by omega, ?_, ?_⟩
        · rw [hT1]
          exact htunk
        · rw [hT1, hlt]
          omega
      have hBeyond : ∀ q, s.i + c.length ≤ q → q < text.length →
          markEntry (setTok s.marks s.i t) q = ⟨bpe.unk, 0⟩ := by
        intro q hq1 hq2
        unfold setTok
        rw [markEntry_set_ne (by omega)]
        exact hinv.beyond q (by omega) hq2
      have hBd0 : markBack (setTok s.marks s.i t) 0 = 0 := by
        rw [hTb]
        exact hinv.bd0
      exact ⟨⟨hiright, hTlen, hBeyond, ⟨n0 + 1, hchainAll⟩, hLast, hBd0, hbdT,
        hinv.qinv⟩, rfl, hdropnext⟩

    -- a previous character exists: also write the back distance and
    -- possibly push a candidate
    · obtain ⟨hplt, hptok, hplen⟩ := hinv.lastOK p hlast
      have hTb2 : ∀ q, q ≠ s.i →
          markBack (setBack (setTok s.marks s.i t) s.i (s.i - p)) q =
          markBack s.marks q := by
        intro q hq
        rw [markBack_setBack_ne hq, hTb]
      have hTb2i : markBack (setBack (setTok s.marks s.i t) s.i (s.i - p)) s.i =
          s.i - p := by
        refine markBack_setBack_self ?_ _
        rw [hTlen]
        omega
      have hTo2 : ∀ q, markTok (setBack (setTok s.marks s.i t) s.i (s.i - p)) q =
          markTok (setTok s.marks s.i t) q :=
        fun q => markTok_setBack _ _ _ _
      have hqOK : ∀ m, bpe.buildMerge text p (s.i + c.length)
          (markTok s.marks p, t) = some m → CandOK bpe text m := by
        intro m hbm
        refine buildMerge_candOK hWFu hbm hiright ?_ hptok htunk ?_ ?_
        · show p + bpe.tokenLen (markTok s.marks p) + bpe.tokenLen t = _
          rw [hplen, hlt]
          omega
        · show 0 < bpe.tokenLen (markTok s.marks p)
          rw [hplen]
          omega
        · show 0 < bpe.tokenLen t
          rw [hlt]
          omega
      have hMlen2 : (setBack (setTok s.marks s.i t) s.i (s.i - p)).length =
          text.length := by
        rw [length_setBack]
        exact hTlen
      have hBeyond : ∀ q, s.i + c.length ≤ q → q < text.length →
          markEntry (setBack (setTok s.marks s.i t) s.i (s.i - p)) q =
          ⟨bpe.unk, 0⟩ := by
        intro q hq1 hq2
        unfold setBack
        rw [markEntry_set_ne (by omega)]
        unfold setTok
        rw [markEntry_set_ne (by omega)]
        exact hinv.beyond q (by omega) hq2
      have hChain : ∃ n, CovN bpe text
          (setBack (setTok s.marks s.i t) s.i (s.i - p)) n 0 (s.i + c.length) :=
        ⟨n0 + 1, covN_frame hchainAll (fun q _ _ => hTo2 q)⟩
      have hLast : ∀ p' : Nat, (some s.i : Option Nat) = some p' →
          p' < s.i + c.length ∧
          markTok (setBack (setTok s.marks s.i t) s.i (s.i - p)) p' ≠ bpe.unk ∧
          bpe.tokenLen (markTok (setBack (setTok s.marks s.i t) s.i (s.i - p)) p') =
            s.i + c.length - p' := by
        intro p' hp'
        cases hp'
        refine ⟨by omega, ?_, ?_⟩
        · rw [hTo2, hT1]
          exact htunk
        · rw [hTo2, hT1, hlt]
          omega
      have hBd0 : markBack (setBack (setTok s.marks s.i t) s.i (s.i - p)) 0 = 0 := by
        rw [hTb2 0 (by omega)]
        exact hinv.bd0
      have hBd : ∀ p', p' < text.length →
          markTok (setBack (setTok s.marks s.i t) s.i (s.i - p)) p' ≠ bpe.unk →
          0 < markBack (setBack (setTok s.marks s.i t) s.i (s.i - p)) p' →
          markBack (setBack (setTok s.marks s.i t) s.i (s.i - p)) p' ≤ p' ∧
            markTok (setBack (setTok s.marks s.i t) s.i (s.i - p))
              (p' - markBack (setBack (setTok s.marks s.i t) s.i (s.i - p)) p') ≠
              bpe.unk ∧
            bpe.tokenLen (markTok (setBack (setTok s.marks s.i t) s.i (s.i - p))
              (p' - markBack (setBack (setTok s.marks s.i t) s.i (s.i - p)) p')) =
              markBack (setBack (setTok s.marks s.i t) s.i (s.i - p)) p' := by
        intro p' hp' htokp' hbackp'
        by_cases hpi : p' = s.i
        · subst hpi
          rw [hTb2i] at hbackp' ⊢
          have hsub : s.i - (s.i - p) = p := by omega
          rw [hsub]
          refine ⟨by omega, ?_, ?_⟩
          · rw [hTo2, hTo p (by omega)]
            exact hptok
          · rw [hTo2, hTo p (by omega)]
            rw [hplen]
        · rw [hTb2 p' hpi] at hbackp' ⊢
          rw [hTo2] at htokp'
          have htokp2 : markTok s.marks p' ≠ bpe.unk := by
            rw [← hTo p' hpi]
            exact htokp'
          obtain ⟨hd1, hd2, hd3⟩ := hinv.bd p' hp' htokp2 hbackp'
          have htgti : p' - markBack s.marks p' ≠ s.i := by
            intro h
            apply hd2
            have hb := hinv.beyond (p' - markBack s.marks p') (by omega) (by omega)
            unfold markTok markEntry at hd2 ⊢
            unfold markEntry at hb
            rw [h] at hb ⊢
            rw [hb]
          refine ⟨hd1, ?_, ?_⟩
          · rw [hTo2, hTo _ htgti]
            exact hd2
          · rw [hTo2, hTo _ htgti]
            exact hd3
      have hQinv : ∀ c', c' ∈
          (match bpe.buildMerge text p (s.i + c.length) (markTok s.marks p, t) with
            | some m => m :: s.merges
            | none => s.merges) → CandOK bpe text c' := by
        intro c' hc'
        rcases hbm : bpe.buildMerge text p (s.i + c.length)
            (markTok s.marks p, t) with _ | m
        · rw [hbm] at hc'
          exact hinv.qinv c' hc'
        · rw [hbm] at hc'
          rcases List.mem_cons.mp hc' with h' | h'
          · exact h' ▸ hqOK m hbm
          · exact hinv.qinv c' h'
      exact ⟨⟨hiright, hMlen2, hBeyond, hChain, hLast, hBd0, hBd, hQinv⟩, rfl,
        hdropnext⟩


/-- The whole `begin_merge` loop preserves the invariant and consumes
exactly the flattened characters. -/
theorem beginMergeFold_inv {bpe : Bpe} {text : List Nat}
    (hWFu : bpe.unk ∉ bpe.sorted_pieces)
    (hWFb : ∀ b, bpe.bytes b = bpe.unk ∨ bpe.pieceOf (bpe.bytes b) = [b]) :
    ∀ (cs : List (List Nat)) (s : BMState),
      BMInv bpe text s → text.drop s.i = cs.flatten →
      (∀ c ∈ cs, c ≠ [] ∧ bpe.findPiece c ≠ some bpe.unk ∧
        (bpe.findPiece c = none → ∀ b ∈ c, bpe.bytes b ≠ bpe.unk)) →
      BMInv bpe text (cs.foldl (beginMergeStep bpe text) s) ∧
        (cs.foldl (beginMergeStep bpe text) s).i = s.i + cs.flatten.length := by
  intro cs
  induction cs with
  | nil =>
    intro s hinv halign _
    exact ⟨hinv, by simp⟩
  | cons c cs ih =>
    intro s hinv halign hrep
    have hc := hrep c (List.mem_cons_self _ _)
    have halign' : text.drop s.i = c ++ cs.flatten := by
      rw [halign]
      rfl
    obtain ⟨hinv', hieq, hdrop'⟩ :=
      beginMergeStep_inv hWFu hWFb hinv halign' hc.1 hc.2.1 hc.2.2
    have hrec := ih (beginMergeStep bpe text s c) hinv'
      (by rw [hieq]; exact hdrop')
      (fun c' h => hrep c' (List.mem_cons_of_mem _ h))
    simp only [List.foldl_cons]
    refine ⟨hrec.1, ?_⟩
    rw [hrec.2, hieq]
    show s.i + c.length + cs.flatten.length = s.i + (c ++ cs.flatten).length
    simp
    omega

/-- After `begin_merge` the full merge-engine invariant holds, with at
most `len(T)` live tokens. -/
theorem beginMerge_inv {bpe : Bpe} {chars : List (List Nat)}
    (hWFu : bpe.unk ∉ bpe.sorted_pieces)
    (hWFb : ∀ b, bpe.bytes b = bpe.unk ∨ bpe.pieceOf (bpe.bytes b) = [b])
    (hchars : ∀ c ∈ chars, c ≠ [])
    (hrep : ∀ c ∈ chars, bpe.findPiece c ≠ some bpe.unk ∧
      (bpe.findPiece c = none → ∀ b ∈ c, bpe.bytes b ≠ bpe.unk)) :
    ∃ n, n ≤ chars.flatten.length ∧
      EncInv bpe chars.flatten (bpe.beginMerge chars).marks
        (bpe.beginMerge chars).merges n := by
  have hback0 : ∀ q, markBack
      (List.replicate chars.flatten.length (⟨bpe.unk, 0⟩ : Mark)) q = 0 := by
    intro q
    unfold markBack markEntry
    rw [List.getD_eq_getElem?_getD, List.getElem?_replicate]
    by_cases hq : q < chars.flatten.length
    · rw [if_pos hq]
      rfl
    · rw [if_neg hq]
      rfl
  have hinv0 : BMInv bpe chars.flatten
      ⟨0, none, List.replicate chars.flatten.length ⟨bpe.unk, 0⟩, []⟩ := by
    refine ⟨Nat.zero_le _, by simp, ?_, ⟨0, CovN.nil 0⟩, ?_, hback0 0, ?_, ?_⟩
    · intro q _ hq2
      exact markEntry_replicate hq2 _
    · intro p hp
      cases hp
    · intro p hp htok _
      exfalso
      apply htok
      show (markEntry (List.replicate chars.flatten.length ⟨bpe.unk, 0⟩) p).token =
        bpe.unk
      rw [markEntry_replicate hp]
    · intro c' hc'
      simp at hc'
  have hrep' : ∀ c ∈ chars, c ≠ [] ∧ bpe.findPiece c ≠ some bpe.unk ∧
      (bpe.findPiece c = none → ∀ b ∈ c, bpe.bytes b ≠ bpe.unk) := by
    intro c hc
    exact ⟨hchars c hc, (hrep c hc).1, (hrep c hc).2⟩
  obtain ⟨hinvF, hiF⟩ := beginMergeFold_inv hWFu hWFb chars
    ⟨0, none, List.replicate chars.flatten.length ⟨bpe.unk, 0⟩, []⟩
    hinv0 (by simp) hrep'
  obtain ⟨n, hcov⟩ := hinvF.chain
  have hiF' : (chars.foldl (beginMergeStep bpe chars.flatten)
      ⟨0, none, List.replicate chars.flatten.length ⟨bpe.unk, 0⟩, []⟩).i =
      chars.flatten.length := by
    rw [hiF]
    show 0 + chars.flatten.length = chars.flatten.length
    omega
  rw [hiF'] at hcov
  have hcount := covN_count_le hcov
  refine ⟨n, by omega, ?_⟩
  show EncInv bpe chars.flatten
    (chars.foldl (beginMergeStep bpe chars.flatten)
      ⟨0, none, List.replicate chars.flatten.length ⟨bpe.unk, 0⟩, []⟩).marks
    (chars.foldl (beginMergeStep bpe chars.flatten)
      ⟨0, none, List.replicate chars.flatten.length ⟨bpe.unk, 0⟩, []⟩).merges n
  exact ⟨hinvF.mlen, hcov, hinvF.bd0, hinvF.bd, hinvF.qinv⟩


/-- End-to-end: for representable texts, `encode` succeeds and decoding
its output returns exactly the input bytes. -/
theorem encode_decode_spec {bpe : Bpe} {chars : List (List Nat)}
    (hWFu : bpe.unk ∉ bpe.sorted_pieces)
    (hWFb : ∀ b, bpe.bytes b = bpe.unk ∨ bpe.pieceOf (bpe.bytes b) = [b])
    (hchars : ∀ c ∈ chars, c ≠ [])
    (hrep : ∀ c ∈ chars, bpe.findPiece c ≠ some bpe.unk ∧
      (bpe.findPiece c = none → ∀ b ∈ c, bpe.bytes b ≠ bpe.unk)) :
    ∃ ts, bpe.encode chars = some ts ∧
      decodeSeq bpe ts = some chars.flatten := by
  obtain ⟨n, hnle, hinv⟩ := beginMerge_inv hWFu hWFb hchars hrep
  obtain ⟨marksF, nF, hloop, hinvF, hle⟩ :=
    mergeLoop_spec hWFu (chars.flatten.length + 1) n
      (bpe.beginMerge chars).marks (bpe.beginMerge chars).merges hinv (by omega)
  have hlenF : marksF.length = chars.flatten.length := hinvF.len_eq
  obtain ⟨ts, hemit, hdec⟩ := emitFrom_spec hinvF.cov hinvF.len_eq rfl
    (marksF.length + 1) (by have := hinvF.len_eq; omega)
  refine ⟨ts, ?_, ?_⟩
  · unfold Bpe.encode
    simp only [hloop]
    exact hemit
  · rw [hdec]
    rw [List.drop_zero]


/-! ### Concrete example tokenizer used by witnesses and counterexamples

Token 0 is `<unk>` with piece bytes `<unk>` (5 bytes), tokens 1, 2, 3 are
`a`, `b`, `ab` with ranks 1, 2, 0; no byte tokens are declared, so the
byte table maps every byte to `UNK`.  `sorted_pieces` is `[1, 3, 2]`
(lexicographic order of `a`, `ab`, `b`). -/
def exBpe : Bpe :=
  { tokens := [⟨[60, 117, 110, 107, 62], 3⟩, ⟨[97], 1⟩, ⟨[98], 2⟩, ⟨[97, 98], 0⟩],
    sorted_pieces := [1, 3, 2],
    bytes := fun _ => 0,
    unk := 0 }

/-- Claim C1: for every text whose byte positions are all representable
(no position of the `begin_merge` marks receives the `UNK` token, i.e.
each character either finds a piece other than `UNK` or falls back to
byte tokens that are all present), decoding the token sequence produced
by `encode` — concatenating the emitted tokens' stored piece bytes —
returns exactly the input text's bytes.  The two `hWF` hypotheses state
properties every `Bpe::new`-built tokenizer has: `UNK` is excluded from
`sorted_pieces`, and each byte-table entry is either `UNK` or a token
whose effective piece is that single byte. -/
theorem claim_c1_roundtrip (bpe : Bpe) (chars : List (List Nat))
    (hWFu : bpe.unk ∉ bpe.sorted_pieces)
    (hWFb : ∀ b, bpe.bytes b = bpe.unk ∨ bpe.pieceOf (bpe.bytes b) = [b])
    (hchars : ∀ c ∈ chars, c ≠ [])
    (hrep : ∀ c ∈ chars, bpe.findPiece c ≠ some bpe.unk ∧
      (bpe.findPiece c = none → ∀ b ∈ c, bpe.bytes b ≠ bpe.unk)) :
    ∃ ts, bpe.encode chars = some ts ∧
      decodeSeq bpe ts = some chars.flatten :=
  encode_decode_spec hWFu hWFb hchars hrep

/-- Witness for C1 on the example tokenizer and the text `ab`. -/
theorem claim_c1_roundtrip_witness :
    ∃ ts, exBpe.encode [[97], [98]] = some ts ∧
      decodeSeq exBpe ts = some [97, 98] :=
  claim_c1_roundtrip exBpe [[97], [98]] (by decide)
    (fun b => Or.inl rfl) (by decide) (by decide)

/-- The validity predicate of a queued candidate (the check at the top
of `MergeState::merge`). -/
def ValidAt (bpe : Bpe) (marks : List Mark) (c : Merge) : Prop :=
  markTok marks c.pos = c.pair.1 ∧
    markTok marks (c.pos + bpe.tokenLen c.pair.1) = c.pair.2

instance (bpe : Bpe) (marks : List Mark) (c : Merge) :
    Decidable (ValidAt bpe marks c) := by
  unfold ValidAt
  infer_instance

/-- Claim C2: when `merge` applies a popped candidate, no candidate
remaining in the queue — valid or not, and in particular no valid one —
is strictly higher priority (`mergeBefore`) than the applied one.  This
is the heap's maximality: `popBest` already returns an element nothing
else beats. -/
theorem claim_c2_greedy (bpe : Bpe) (marks : List Mark)
    (queue rest : List Merge) (c : Merge)
    (hpop : popBest queue = some (c, rest))
    (_hvalid : ValidAt bpe marks c) :
    ∀ x ∈ rest, ValidAt bpe marks x → ¬ mergeBefore x c := by
  intro x hx _
  exact popBest_best hpop x hx

/-- Witness for C2: two valid candidates for the same pair, ranks 0 and 5;
the rank-0 one is popped and the leftover rank-5 one does not beat it. -/
theorem claim_c2_greedy_witness :
    ¬ mergeBefore ⟨0, (1, 2), 3, 5⟩ ⟨0, (1, 2), 3, 0⟩ :=
  claim_c2_greedy exBpe [⟨1, 0⟩, ⟨2, 1⟩]
    [⟨0, (1, 2), 3, 0⟩, ⟨0, (1, 2), 3, 5⟩] [⟨0, (1, 2), 3, 5⟩] ⟨0, (1, 2), 3, 0⟩
    (by decide) (by decide) ⟨0, (1, 2), 3, 5⟩ (by decide) (by decide)

/-- Claim C5 (counterexample): the claim asserts `encode` always
terminates with `merge` returning `false` within `len(T)` iterations.
On the example tokenizer and the text `ab¢` (the cent sign has no piece
and no byte tokens exist, so its two byte positions hold `UNK`), the
very first `merge` call panics: after applying `a+b → ab` it computes
`p4 = p3 + len(piece(UNK)) = 2 + 5 = 7` and slices `text[0..7]` out of
bounds.  `merge` therefore never returns `false`: the first conjunct
shows the panic inside the first `merge` call (ample pop fuel), the
second that the whole loop aborts instead of completing. -/
theorem claim_c5_counterexample :
    mergeRun exBpe [97, 98, 194, 162] 2
        (exBpe.beginMerge [[97], [98], [194, 162]]).marks
        (exBpe.beginMerge [[97], [98], [194, 162]]).merges = none ∧
      mergeLoop exBpe [97, 98, 194, 162] 5
        (exBpe.beginMerge [[97], [98], [194, 162]]).marks
        (exBpe.beginMerge [[97], [98], [194, 162]]).merges = none := by
  decide

/-- Claim C5 (amended): for every text whose byte positions are all
representable, the `while merge() {}` loop of `encode` terminates with
`merge` returning `false` after at most `len(T)` iterations — stated as:
the loop with fuel `len(T) + 1` (one `merge` call per fuel unit)
completes normally. -/
theorem claim_c5_termination (bpe : Bpe) (chars : List (List Nat))
    (hWFu : bpe.unk ∉ bpe.sorted_pieces)
    (hWFb : ∀ b, bpe.bytes b = bpe.unk ∨ bpe.pieceOf (bpe.bytes b) = [b])
    (hchars : ∀ c ∈ chars, c ≠ [])
    (hrep : ∀ c ∈ chars, bpe.findPiece c ≠ some bpe.unk ∧
      (bpe.findPiece c = none → ∀ b ∈ c, bpe.bytes b ≠ bpe.unk)) :
    ∃ marksF, mergeLoop bpe chars.flatten (chars.flatten.length + 1)
      (bpe.beginMerge chars).marks (bpe.beginMerge chars).merges =
      some marksF := by
  obtain ⟨n, hnle, hinv⟩ := beginMerge_inv hWFu hWFb hchars hrep
  obtain ⟨marksF, nF, hloop, _, _⟩ :=
    mergeLoop_spec hWFu (chars.flatten.length + 1) n
      (bpe.beginMerge chars).marks (bpe.beginMerge chars).merges hinv (by omega)
  exact ⟨marksF, hloop⟩

/-- Witness for the amended C5 on the example tokenizer and text `ab`. -/
theorem claim_c5_termination_witness :
    ∃ marksF, mergeLoop exBpe [97, 98] 3
      (exBpe.beginMerge [[97], [98]]).marks
      (exBpe.beginMerge [[97], [98]]).merges = some marksF :=
  claim_c5_termination exBpe [[97], [98]] (by decide)
    (fun b => Or.inl rfl) (by decide) (by decide)

/-- Claim C7: the claim (and the spec) say `encode` never fails; in the
code a character with no piece whose bytes have no byte tokens leaves
`UNK` at those positions, and the first merge bordering such a position
slices `text[p1..p3 + len(piece(UNK))]` out of bounds and panics.
On the failing input (`ab¢`, vocabulary `{<unk>, a, b, ab}` with no byte
tokens) `encode` aborts instead of succeeding. -/
theorem claim_c7_encode_panics :
    exBpe.encode [[97], [98], [194, 162]] = none := by
  decide

/-- Decoding a sequence containing an undecodable token id panics. -/
theorem decodeSeq_none_of_mem (bpe : Bpe) (t : utok)
    (hnone : bpe.decodeTok t = none) :
    ∀ ts : List utok, t ∈ ts → decodeSeq bpe ts = none := by
  intro ts
  induction ts with
  | nil =>
    intro h
    simp at h
  | cons x xs ih =>
    intro htm
    have hstep : decodeSeq bpe (x :: xs) =
        match bpe.decodeTok x, decodeSeq bpe xs with
        | some pc, some a => some (pc ++ a)
        | _, _ => none := rfl
    rcases List.mem_cons.mp htm with hx | hx
    · rw [hstep, show bpe.decodeTok x = none from hx ▸ hnone]
    · rw [hstep, ih hx]
      rcases hdx : bpe.decodeTok x with _ | pc
      · rfl
      · rfl

/-- Claim C10: `Bpe::decode` of a token id below `vocab_size` returns the
stored piece; for an id at or above `vocab_size` the indexing panics
(modelled as `none`), and `Tokeneer::decode` of any sequence containing
such an id panics as well rather than returning an error value. -/
theorem claim_c10_decode_bounds (bpe : Bpe) (ts : List utok) (t : utok) :
    (t < bpe.tokens.length → bpe.decodeTok t = some (bpe.token t).piece) ∧
      (bpe.tokens.length ≤ t → t ∈ ts → decodeSeq bpe ts = none) := by
  constructor
  · intro ht
    unfold Bpe.decodeTok Bpe.token
    rw [List.get?_eq_getElem?, List.getElem?_eq_getElem ht]
    rw [List.getD_eq_getElem?_getD, List.getElem?_eq_getElem ht]
    rfl
  · intro ht htm
    have hnone : bpe.decodeTok t = none := by
      unfold Bpe.decodeTok
      rw [List.get?_eq_getElem?, List.getElem?_eq_none (by omega)]
      rfl
    exact decodeSeq_none_of_mem bpe t hnone ts htm

/-- Witness for C10 on the example tokenizer: id 1 decodes to `a`, and a
sequence containing the out-of-range id 9 makes decode panic. -/
theorem claim_c10_decode_bounds_witness :
    exBpe.decodeTok 1 = some (exBpe.token 1).piece ∧
      decodeSeq exBpe [3, 9] = none :=
  ⟨(claim_c10_decode_bounds exBpe [3, 9] 1).1 (by decide),
    (claim_c10_decode_bounds exBpe [3, 9] 9).2 (by decide) (by decide)⟩


/-- The back-distance property that actually holds during encoding: the
first position has back distance 0, and every position holding a live
(non-`UNK`) token with a nonzero back distance points back exactly one
live token, whose byte span equals that distance. -/
def BackOK (bpe : Bpe) (text : List Nat) (marks : List Mark) : Prop :=
  markBack marks 0 = 0 ∧
    ∀ p, p < text.length → markTok marks p ≠ bpe.unk →
      0 < markBack marks p →
      markBack marks p ≤ p ∧
        markTok marks (p - markBack marks p) ≠ bpe.unk ∧
        bpe.tokenLen (markTok marks (p - markBack marks p)) = markBack marks p

/-- Claim C4 (counterexample): encoding `ab` with the example tokenizer
applies the merge `a+b → ab`; afterwards position 1 is interior (it
holds `UNK`, inside the span of the `ab` token at position 0) yet its
`back_distance` is still 1, not 0 — the merge code never clears the
killed position's back distance, refuting the claim that every interior
position has back distance 0. -/
theorem claim_c4_counterexample :
    mergeRun exBpe [97, 98] 2 (exBpe.beginMerge [[97], [98]]).marks
        (exBpe.beginMerge [[97], [98]]).merges =
      some (true, [⟨3, 0⟩, ⟨0, 1⟩], []) ∧
      markTok [⟨3, 0⟩, ⟨0, 1⟩] 1 = exBpe.unk ∧
      markBack [⟨3, 0⟩, ⟨0, 1⟩] 1 ≠ 0 := by
  decide

/-- Claim C4 (amended): after `begin_merge` and after every successful
`merge`, position 0 has back distance 0 and every live position with a
nonzero back distance points back exactly the span of a live token;
interior positions may retain stale back distances and a live position
after a byte-fallback gap may have back distance 0. -/
theorem claim_c4_back_invariant (bpe : Bpe) (chars : List (List Nat))
    (hWFu : bpe.unk ∉ bpe.sorted_pieces)
    (hWFb : ∀ b, bpe.bytes b = bpe.unk ∨ bpe.pieceOf (bpe.bytes b) = [b])
    (hchars : ∀ c ∈ chars, c ≠ [])
    (hrep : ∀ c ∈ chars, bpe.findPiece c ≠ some bpe.unk ∧
      (bpe.findPiece c = none → ∀ b ∈ c, bpe.bytes b ≠ bpe.unk)) :
    BackOK bpe chars.flatten (bpe.beginMerge chars).marks ∧
      (∀ (marks marks2 : List Mark) (queue queue2 : List Merge) (n fuel : Nat),
        EncInv bpe chars.flatten marks queue n → queue.length < fuel →
        mergeRun bpe chars.flatten fuel marks queue = some (true, marks2, queue2) →
        BackOK bpe chars.flatten marks2) := by
  constructor
  · obtain ⟨n, _, hinv⟩ := beginMerge_inv hWFu hWFb hchars hrep
    exact ⟨hinv.bd0, hinv.bd⟩
  · intro marks marks2 queue queue2 n fuel hinv hfq hmr
    rcases mergeRun_spec hWFu fuel queue marks n hinv hfq with hfalse | htrue
    · rw [hfalse] at hmr
      simp at hmr
    · obtain ⟨marksB, queueL, n', hrun, _, hinv'⟩ := htrue
      rw [hrun] at hmr
      simp at hmr
      obtain ⟨hm, -⟩ := hmr
      rw [← hm]
      exact ⟨hinv'.bd0, hinv'.bd⟩

/-- Witness for the amended C4 at the example tokenizer and text `ab`. -/
theorem claim_c4_back_invariant_witness :
    BackOK exBpe ([[97], [98]].flatten) (exBpe.beginMerge [[97], [98]]).marks :=
  (claim_c4_back_invariant exBpe [[97], [98]] (by decide)
    (fun b => Or.inl rfl) (by decide) (by decide)).1

/-- Unconditional frame property of the apply phase: whenever the merge
step completes (returns `some`), the only mark changes are the merged
token at `p1`, `UNK` at `p2`, and (when `p3` is in range) the back
distance at `p3`. -/
theorem mergeRight_frame {bpe : Bpe} {text : List Nat} {c : Merge}
    {marks : List Mark} {rest queueB : List Merge} {marksB : List Mark}
    (h : mergeRight bpe text c marks rest = some (marksB, queueB))
    (hp1 : c.pos < marks.length)
    (hp2 : c.pos + bpe.tokenLen c.pair.1 < marks.length)
    (hl1 : 0 < bpe.tokenLen c.pair.1) :
    marksB.length = marks.length ∧
      markTok marksB c.pos = c.merge ∧
      markTok marksB (c.pos + bpe.tokenLen c.pair.1) = bpe.unk ∧
      (∀ q, q ≠ c.pos → q ≠ c.pos + bpe.tokenLen c.pair.1 →
        markTok marksB q = markTok marks q) ∧
      (∀ q, q ≠ c.pos + bpe.tokenLen c.pair.1 + bpe.tokenLen c.pair.2 →
        markBack marksB q = markBack marks q) ∧
      (c.pos + bpe.tokenLen c.pair.1 + bpe.tokenLen c.pair.2 < marks.length →
        markBack marksB (c.pos + bpe.tokenLen c.pair.1 + bpe.tokenLen c.pair.2) =
          bpe.tokenLen c.pair.1 + bpe.tokenLen c.pair.2) ∧
      (¬ c.pos + bpe.tokenLen c.pair.1 + bpe.tokenLen c.pair.2 < marks.length →
        markBack marksB (c.pos + bpe.tokenLen c.pair.1 + bpe.tokenLen c.pair.2) =
          markBack marks (c.pos + bpe.tokenLen c.pair.1 + bpe.tokenLen c.pair.2)) := by
  have hlenA : (setTok (setTok marks c.pos c.merge)
      (c.pos + bpe.tokenLen c.pair.1) bpe.unk).length = marks.length := by
    rw [length_setTok, length_setTok]
  have hTokA1 : markTok (setTok (setTok marks c.pos c.merge)
      (c.pos + bpe.tokenLen c.pair.1) bpe.unk) c.pos = c.merge := by
    rw [markTok_setTok_ne (by omega), markTok_setTok_self hp1]
  have hTokA2 : markTok (setTok (setTok marks c.pos c.merge)
      (c.pos + bpe.tokenLen c.pair.1) bpe.unk)
      (c.pos + bpe.tokenLen c.pair.1) = bpe.unk := by
    rw [markTok_setTok_self]
    rw [length_setTok]
    exact hp2
  have hTokAo : ∀ q, q ≠ c.pos → q ≠ c.pos + bpe.tokenLen c.pair.1 →
      markTok (setTok (setTok marks c.pos c.merge)
        (c.pos + bpe.tokenLen c.pair.1) bpe.unk) q = markTok marks q := by
    intro q hq1 hq2
    rw [markTok_setTok_ne hq2, markTok_setTok_ne hq1]
  have hBackA : ∀ q, markBack (setTok (setTok marks c.pos c.merge)
      (c.pos + bpe.tokenLen c.pair.1) bpe.unk) q = markBack marks q := by
    intro q
    rw [markBack_setTok, markBack_setTok]
  unfold mergeRight at h
  dsimp only at h
  by_cases hp3 : c.pos + bpe.tokenLen c.pair.1 + bpe.tokenLen c.pair.2 <
      (setTok (setTok marks c.pos c.merge)
        (c.pos + bpe.tokenLen c.pair.1) bpe.unk).length
  · rw [if_pos hp3] at h
    rw [hlenA] at hp3
    by_cases hp4 : c.pos + bpe.tokenLen c.pair.1 + bpe.tokenLen c.pair.2 +
        bpe.tokenLen (markTok (setBack (setTok (setTok marks c.pos c.merge)
          (c.pos + bpe.tokenLen c.pair.1) bpe.unk)
          (c.pos + bpe.tokenLen c.pair.1 + bpe.tokenLen c.pair.2)
          (bpe.tokenLen c.pair.1 + bpe.tokenLen c.pair.2))
          (c.pos + bpe.tokenLen c.pair.1 + bpe.tokenLen c.pair.2)) ≤ text.length
    · rw [if_pos hp4] at h
      have hgoal : marksB = setBack (setTok (setTok marks c.pos c.merge)
          (c.pos + bpe.tokenLen c.pair.1) bpe.unk)
          (c.pos + bpe.tokenLen c.pair.1 + bpe.tokenLen c.pair.2)
          (bpe.tokenLen c.pair.1 + bpe.tokenLen c.pair.2) := by
        rcases hbm : bpe.buildMerge text c.pos
            (c.pos + bpe.tokenLen c.pair.1 + bpe.tokenLen c.pair.2 +
              bpe.tokenLen (markTok (setBack (setTok (setTok marks c.pos c.merge)
                (c.pos + bpe.tokenLen c.pair.1) bpe.unk)
                (c.pos + bpe.tokenLen c.pair.1 + bpe.tokenLen c.pair.2)
                (bpe.tokenLen c.pair.1 + bpe.tokenLen c.pair.2))
                (c.pos + bpe.tokenLen c.pair.1 + bpe.tokenLen c.pair.2)))
            (c.merge, markTok (setBack (setTok (setTok marks c.pos c.merge)
              (c.pos + bpe.tokenLen c.pair.1) bpe.unk)
              (c.pos + bpe.tokenLen c.pair.1 + bpe.tokenLen c.pair.2)
              (bpe.tokenLen c.pair.1 + bpe.tokenLen c.pair.2))
              (c.pos + bpe.tokenLen c.pair.1 + bpe.tokenLen c.pair.2)) with _ | m
        · rw [hbm] at h
          simp at h
          exact h.1.symm
        · rw [hbm] at h
          simp at h
          exact h.1.symm
      subst hgoal
      refine ⟨by rw [length_setBack, hlenA], ?_, ?_, ?_, ?_, ?_, ?_⟩
      · rw [markTok_setBack, hTokA1]
      · rw [markTok_setBack, hTokA2]
      · intro q hq1 hq2
        rw [markTok_setBack, hTokAo q hq1 hq2]
      · intro q hq
        rw [markBack_setBack_ne hq, hBackA]
      · intro _
        rw [markBack_setBack_self]
        rw [hlenA]
        omega
      · intro hcon
        omega
    · rw [if_neg hp4] at h
      simp at h
  · rw [if_neg hp3] at h
    rw [hlenA] at hp3
    simp at h
    obtain ⟨hm, -⟩ := h
    subst hm
    refine ⟨hlenA, hTokA1, hTokA2, hTokAo, ?_, ?_, ?_⟩
    · intro q _
      exact hBackA q
    · intro hcon
      omega
    · intro _
      exact hBackA _

/-- The left-neighbour phase never modifies the marks it is given. -/
theorem mergeLeft_marks {bpe : Bpe} {text : List Nat} {c : Merge}
    {marksB : List Mark} {queueB : List Merge} {r : List Mark × List Merge}
    (h : mergeLeft bpe text c marksB queueB = some r) : r.1 = marksB := by
  unfold mergeLeft at h
  dsimp only at h
  by_cases hb0 : markBack marksB c.pos = 0
  · rw [if_pos hb0] at h
    cases h
    rfl
  · rw [if_neg hb0] at h
    by_cases hg : markBack marksB c.pos ≤ c.pos ∧
        c.pos + bpe.tokenLen c.pair.1 + bpe.tokenLen c.pair.2 ≤ text.length
    · rw [if_pos hg] at h
      rcases hbm : bpe.buildMerge text (c.pos - markBack marksB c.pos)
          (c.pos + bpe.tokenLen c.pair.1 + bpe.tokenLen c.pair.2)
          (markTok marksB (c.pos - markBack marksB c.pos), c.merge) with _ | m
      · rw [hbm] at h
        simp at h
        rw [← h]
      · rw [hbm] at h
        simp at h
        rw [← h]
    · rw [if_neg hg] at h
      simp at h

/-- Claim C3: when `merge` pops a candidate, a failed validity check
discards it with the mark array untouched (`processCand` returns the
discard outcome, and `mergeRun` by definition continues with the same
marks); a passed check applies the merge by writing exactly the merged
token at `p1`, `UNK` at `p2`, and (when `p3` is in range) back distance
`len(t1)+len(t2)` at `p3`, every other field of every other entry being
unchanged.  The bounds hypotheses are the ones the source presupposes by
indexing `marks[p1]` and `marks[p2]`, and `0 < len(t1)` separates the
two written positions. -/
theorem claim_c3_step_effect (bpe : Bpe) (text : List Nat)
    (marks : List Mark) (c : Merge) (rest : List Merge)
    (hp1 : c.pos < marks.length)
    (hp2 : c.pos + bpe.tokenLen c.pair.1 < marks.length)
    (hl1 : 0 < bpe.tokenLen c.pair.1) :
    ((markTok marks c.pos ≠ c.pair.1 ∨
        markTok marks (c.pos + bpe.tokenLen c.pair.1) ≠ c.pair.2) →
      processCand bpe text marks c rest = some none) ∧
      (∀ marksB queueL,
        mergeApply bpe text c marks rest = some (marksB, queueL) →
        marksB.length = marks.length ∧
          markTok marksB c.pos = c.merge ∧
          markTok marksB (c.pos + bpe.tokenLen c.pair.1) = bpe.unk ∧
          (∀ q, q ≠ c.pos → q ≠ c.pos + bpe.tokenLen c.pair.1 →
            markTok marksB q = markTok marks q) ∧
          (∀ q, q ≠ c.pos + bpe.tokenLen c.pair.1 + bpe.tokenLen c.pair.2 →
            markBack marksB q = markBack marks q) ∧
          (c.pos + bpe.tokenLen c.pair.1 + bpe.tokenLen c.pair.2 < marks.length →
            markBack marksB
              (c.pos + bpe.tokenLen c.pair.1 + bpe.tokenLen c.pair.2) =
              bpe.tokenLen c.pair.1 + bpe.tokenLen c.pair.2) ∧
          (¬ c.pos + bpe.tokenLen c.pair.1 + bpe.tokenLen c.pair.2 < marks.length →
            markBack marksB
              (c.pos + bpe.tokenLen c.pair.1 + bpe.tokenLen c.pair.2) =
              markBack marks
                (c.pos + bpe.tokenLen c.pair.1 + bpe.tokenLen c.pair.2))) := by
  constructor
  · intro hmis
    unfold processCand
    rw [if_pos hp1]
    by_cases h1 : markTok marks c.pos = c.pair.1
    · rw [if_pos h1, if_pos hp2]
      rcases hmis with hmis | hmis
      · exact absurd h1 hmis
      · rw [if_neg hmis]
    · rw [if_neg h1]
  · intro marksB queueL hap
    unfold mergeApply at hap
    rcases hmr : mergeRight bpe text c marks rest with _ | s
    · rw [hmr] at hap
      simp at hap
    · rw [hmr] at hap
      simp at hap
      rcases s with ⟨m1, q1⟩
      have hm1 : marksB = m1 := mergeLeft_marks hap
      subst hm1
      exact mergeRight_frame hmr hp1 hp2 hl1

/-- Witness for C3 on the example tokenizer (`ab`, the `a+b → ab`
candidate): a stale variant is discarded, and the applied merge performs
exactly the three writes. -/
theorem claim_c3_step_effect_witness :
    (processCand exBpe [97, 98] [⟨1, 0⟩, ⟨2, 1⟩] ⟨0, (1, 9), 3, 0⟩ [] =
      some none) ∧
      (∀ marksB queueL,
        mergeApply exBpe [97, 98] ⟨0, (1, 2), 3, 0⟩ [⟨1, 0⟩, ⟨2, 1⟩] [] =
          some (marksB, queueL) →
        marksB.length = 2 ∧ markTok marksB 0 = 3 ∧ markTok marksB 1 = exBpe.unk ∧
          (∀ q, q ≠ 0 → q ≠ 1 → markTok marksB q = markTok [⟨1, 0⟩, ⟨2, 1⟩] q) ∧
          (∀ q, q ≠ 2 → markBack marksB q = markBack [⟨1, 0⟩, ⟨2, 1⟩] q) ∧
          ((2 : Nat) < 2 → markBack marksB 2 = 2) ∧
          (¬ (2 : Nat) < 2 → markBack marksB 2 = markBack [⟨1, 0⟩, ⟨2, 1⟩] 2)) :=
  ⟨(claim_c3_step_effect exBpe [97, 98] [⟨1, 0⟩, ⟨2, 1⟩] ⟨0, (1, 9), 3, 0⟩ []
      (by decide) (by decide) (by decide)).1 (by decide),
    (claim_c3_step_effect exBpe [97, 98] [⟨1, 0⟩, ⟨2, 1⟩] ⟨0, (1, 2), 3, 0⟩ []
      (by decide) (by decide) (by decide)).2⟩


/-- Insertion into a strictly descending duplicate-free list of scores,
dropping duplicates: the reversed view of inserting into the `BTreeSet`
of `fn rank`.  Scores are modelled as `Int`; the source orders `f32` by
`total_cmp`, a total order, and the algorithm uses nothing about the
scores but that order. -/
def insertDesc (x : Int) : List Int → List Int
  | [] => [x]
  | y :: ys =>
    if y < x then x :: y :: ys
    else if x = y then y :: ys
    else y :: insertDesc x ys

/-- The distinct scores in strictly descending order: the `BTreeSet` of
`fn rank` iterated in reverse. -/
def rankList (scores : List Int) : List Int :=
  scores.foldr insertDesc []

/-- Index of the first occurrence of a score in a list: the rank the
`BTreeMap` of `fn rank` assigns when the list is the descending distinct
score list. -/
def posIn (x : Int) : List Int → Nat
  | [] => 0
  | y :: ys => if x = y then 0 else posIn x ys + 1

/-- `fn rank` (src/src/bpe/mod.rs): deduplicate the scores, enumerate
them in descending order from 0, and map every input score to its
assigned rank. -/
def rank (scores : List Int) : List Nat :=
  scores.map fun s => posIn s (rankList scores)

theorem mem_insertDesc {z x : Int} : ∀ l : List Int,
    (z ∈ insertDesc x l ↔ z = x ∨ z ∈ l)
  | [] => by simp [insertDesc]
  | y :: ys => by
    unfold insertDesc
    by_cases h1 : y < x
    · rw [if_pos h1]
      simp only [List.mem_cons]
    · rw [if_neg h1]
      by_cases h2 : x = y
      · rw [if_pos h2]
        subst h2
        simp only [List.mem_cons]
        tauto
      · rw [if_neg h2]
        simp only [List.mem_cons, @mem_insertDesc z x ys]
        tauto

theorem pairwise_insertDesc {x : Int} : ∀ {l : List Int},
    List.Pairwise (fun a b : Int => a > b) l →
    List.Pairwise (fun a b : Int => a > b) (insertDesc x l)
  | [], _ => by simp [insertDesc]
  | y :: ys, h => by
    rcases List.pairwise_cons.mp h with ⟨hy, hys⟩
    unfold insertDesc
    by_cases h1 : y < x
    · rw [if_pos h1]
      refine List.pairwise_cons.mpr ⟨?_, h⟩
      intro z hz
      rcases List.mem_cons.mp hz with rfl | hz
      · exact h1
      · have := hy z hz
        omega
    · rw [if_neg h1]
      by_cases h2 : x = y
      · rw [if_pos h2]
        exact h
      · rw [if_neg h2]
        refine List.pairwise_cons.mpr ⟨?_, pairwise_insertDesc hys⟩
        intro z hz
        rcases (mem_insertDesc ys).mp hz with rfl | hz
        · omega
        · exact hy z hz

theorem pairwise_rankList (scores : List Int) :
    List.Pairwise (fun a b : Int => a > b) (rankList scores) := by
  induction scores with
  | nil => simp [rankList]
  | cons s ss ih => exact pairwise_insertDesc ih

theorem mem_rankList {x : Int} : ∀ scores : List Int,
    (x ∈ rankList scores ↔ x ∈ scores)
  | [] => by simp [rankList]
  | s :: ss => by
    unfold rankList
    simp only [List.foldr_cons]
    rw [mem_insertDesc]
    rw [show List.foldr insertDesc [] ss = rankList ss from rfl]
    rw [mem_rankList ss]
    simp

theorem posIn_mono {x y : Int} : ∀ {l : List Int},
    List.Pairwise (fun a b : Int => a > b) l → x ∈ l → y ∈ l → y < x →
    posIn x l < posIn y l
  | z :: zs, hp, hx, hy, hxy => by
    rcases List.pairwise_cons.mp hp with ⟨hz, hzs⟩
    unfold posIn
    by_cases h1 : x = z
    · rw [if_pos h1]
      have h2 : ¬ y = z := by omega
      rw [if_neg h2]
      omega
    · rw [if_neg h1]
      have hx2 : x ∈ zs := by
        rcases List.mem_cons.mp hx with rfl | h
        · exact absurd rfl h1
        · exact h
      have hzx := hz x hx2
      have h2 : ¬ y = z := by omega
      rw [if_neg h2]
      have hy2 : y ∈ zs := by
        rcases List.mem_cons.mp hy with rfl | h
        · exact absurd rfl h2
        · exact h
      have := posIn_mono hzs hx2 hy2 hxy
      omega

theorem posIn_get : ∀ {l : List Int},
    List.Pairwise (fun a b : Int => a > b) l →
    ∀ k (hk : k < l.length), posIn (l.get ⟨k, hk⟩) l = k
  | z :: zs, _, 0, _ => by
    show posIn z (z :: zs) = 0
    unfold posIn
    rw [if_pos rfl]
  | z :: zs, hp, k + 1, hk => by
    rcases List.pairwise_cons.mp hp with ⟨hz, hzs⟩
    have hk2 : k < zs.length := by
      simp at hk
      omega
    show posIn (zs.get ⟨k, hk2⟩) (z :: zs) = k + 1
    unfold posIn
    have hmem : zs.get ⟨k, hk2⟩ ∈ zs := List.get_mem zs k hk2
    have hne : ¬ zs.get ⟨k, hk2⟩ = z := by
      have := hz _ hmem
      omega
    rw [if_neg hne, posIn_get hzs k hk2]

/-- Claim C6: `rank` maps a score vector to a same-length rank vector
where equal scores get equal ranks, a strictly higher score gets a
strictly smaller rank, and the distinct scores in descending order get
ranks 0, 1, 2, … (the descending distinct score list is strictly
decreasing, contains exactly the input scores, and its k-th element has
rank k). -/
theorem claim_c6_rank (scores : List Int) :
    (rank scores).length = scores.length ∧
      (∀ i j (hi : i < scores.length) (hj : j < scores.length),
        scores.get ⟨i, hi⟩ = scores.get ⟨j, hj⟩ →
        (rank scores).getD i 0 = (rank scores).getD j 0) ∧
      (∀ i j (hi : i < scores.length) (hj : j < scores.length),
        scores.get ⟨j, hj⟩ < scores.get ⟨i, hi⟩ →
        (rank scores).getD i 0 < (rank scores).getD j 0) ∧
      List.Pairwise (fun a b : Int => a > b) (rankList scores) ∧
      (∀ x : Int, x ∈ rankList scores ↔ x ∈ scores) ∧
      (∀ k (hk : k < (rankList scores).length),
        posIn ((rankList scores).get ⟨k, hk⟩) (rankList scores) = k) := by
  have hgetD : ∀ i (hi : i < scores.length),
      (rank scores).getD i 0 = posIn (scores.get ⟨i, hi⟩) (rankList scores) := by
    intro i hi
    unfold rank
    rw [List.getD_eq_getElem?_getD, List.getElem?_map, List.getElem?_eq_getElem hi]
    rfl
  refine ⟨by simp [rank], ?_, ?_, pairwise_rankList scores, fun x => mem_rankList scores, ?_⟩
  · intro i j hi hj heq
    rw [hgetD i hi, hgetD j hj, heq]
  · intro i j hi hj hlt
    rw [hgetD i hi, hgetD j hj]
    exact posIn_mono (pairwise_rankList scores)
      ((mem_rankList scores).mpr (List.get_mem scores i hi))
      ((mem_rankList scores).mpr (List.get_mem scores j hj)) hlt
  · intro k hk
    exact posIn_get (pairwise_rankList scores) k hk

/-- Witness for C6 at the scores `[5, 7, 5, 2]`: the strictly higher
score 7 gets a strictly smaller rank than the 5 before it, and the two
equal 5-scores get equal ranks. -/
theorem claim_c6_rank_witness :
    (rank [(5 : Int), 7, 5, 2]).getD 1 0 < (rank [(5 : Int), 7, 5, 2]).getD 0 0 ∧
      (rank [(5 : Int), 7, 5, 2]).getD 0 0 = (rank [(5 : Int), 7, 5, 2]).getD 2 0 :=
  ⟨(claim_c6_rank [5, 7, 5, 2]).2.2.1 1 0 (by decide) (by decide) (by decide),
    (claim_c6_rank [5, 7, 5, 2]).2.1 0 2 (by decide) (by decide) (by decide)⟩


/-- Whether `v` occurs as a contiguous subslice of `buf` at offset
`off`. -/
def isSubAt (buf v : List Nat) (off : Nat) : Bool :=
  decide (seg buf off v.length = v)

/-- `memchr::memmem::find`: the first offset at which `v` occurs as a
contiguous subslice of `buf`, `none` if it does not occur. -/
def findSub (buf v : List Nat) : Option Nat :=
  (List.range (buf.length + 1)).find? (isSubAt buf v)

/-- One iteration of the `for i in indices` loop of
`CompressedVocab::new`: look the piece up in the buffer and reuse its
offset, otherwise append it at the end; record the `(offset, length)`
slice for index `i`.  State is `(slices, text_buf)`. -/
def cvStep (vocabs : List (List Nat)) (st : List (Nat × Nat) × List Nat)
    (i : Nat) : List (Nat × Nat) × List Nat :=
  let v := vocabs.getD i []
  match findSub st.2 v with
  | some off => (st.1.set i (off, v.length), st.2)
  | none => (st.1.set i (st.2.length, v.length), st.2 ++ v)

/-- Insertion step of sorting the indices by descending piece length
(`indices.sort_unstable_by_key` on the negated length). -/
def insertByLen (vocabs : List (List Nat)) (i : Nat) : List Nat → List Nat
  | [] => [i]
  | j :: js =>
    if (vocabs.getD j []).length ≤ (vocabs.getD i []).length then i :: j :: js
    else j :: insertByLen vocabs i js

/-- All token indices, sorted by descending piece length. -/
def sortedIndices (vocabs : List (List Nat)) : List Nat :=
  (List.range vocabs.length).foldr (insertByLen vocabs) []

/-- `CompressedVocab::new` (src/src/vocab.rs): slices start as `(0, 0)`,
the buffer empty; indices are processed in descending piece-length
order; the result is `(slices, vocabs_buffer)`. -/
def compressedVocab (vocabs : List (List Nat)) : List (Nat × Nat) × List Nat :=
  (sortedIndices vocabs).foldl (cvStep vocabs)
    (List.replicate vocabs.length (0, 0), [])

/-- The per-index postcondition of the compression loop: the recorded
slice has the piece's length, stays inside the buffer, and resolves to
the piece itself. -/
def SliceOK (vocabs : List (List Nat)) (st : List (Nat × Nat) × List Nat)
    (i : Nat) : Prop :=
  (st.1.getD i (0, 0)).2 = (vocabs.getD i []).length ∧
    (st.1.getD i (0, 0)).1 + (vocabs.getD i []).length ≤ st.2.length ∧
    seg st.2 (st.1.getD i (0, 0)).1 (vocabs.getD i []).length = vocabs.getD i []

theorem getD_set_self_pair {l : List (Nat × Nat)} {i : Nat} {x d : Nat × Nat}
    (h : i < l.length) : (l.set i x).getD i d = x := by
  simp [List.getD_eq_getElem?_getD, List.getElem?_set_self h]

theorem getD_set_ne_pair {l : List (Nat × Nat)} {i j : Nat} {x d : Nat × Nat}
    (h : j ≠ i) : (l.set i x).getD j d = l.getD j d := by
  simp [List.getD_eq_getElem?_getD,
    List.getElem?_set_ne (fun hij => h hij.symm)]

theorem findSub_spec {buf v : List Nat} {off : Nat}
    (h : findSub buf v = some off) :
    seg buf off v.length = v ∧ off + v.length ≤ buf.length := by
  have hp := List.find?_some h
  have hseg : seg buf off v.length = v := of_decide_eq_true hp
  refine ⟨hseg, ?_⟩
  have hlen : (seg buf off v.length).length = v.length := by rw [hseg]
  simp [seg] at hlen
  have hoff : off < buf.length + 1 :=
    List.mem_range.mp (List.mem_of_find?_eq_some h)
  omega

theorem seg_append_self (a b : List Nat) : seg (a ++ b) a.length b.length = b := by
  unfold seg
  rw [List.drop_left, List.take_length]

theorem seg_extend_stable {a b : List Nat} {s l : Nat} (h : s + l ≤ a.length) :
    seg (a ++ b) s l = seg a s l := by
  unfold seg
  rw [List.drop_append_of_le_length (by omega)]
  rw [List.take_append_of_le_length (by simp; omega)]

theorem cvStep_establishes {vocabs : List (List Nat)}
    {st : List (Nat × Nat) × List Nat} {i : Nat}
    (hlen : st.1.length = vocabs.length) (hi : i < vocabs.length) :
    SliceOK vocabs (cvStep vocabs st i) i := by
  unfold cvStep
  dsimp only
  rcases hf : findSub st.2 (vocabs.getD i []) with _ | off
  · simp only
    unfold SliceOK
    rw [getD_set_self_pair (by omega)]
    refine ⟨rfl, by simp, ?_⟩
    exact seg_append_self st.2 (vocabs.getD i [])
  · simp only
    obtain ⟨hseg, hbound⟩ := findSub_spec hf
    unfold SliceOK
    rw [getD_set_self_pair (by omega)]
    exact ⟨rfl, hbound, hseg⟩

theorem cvStep_preserves {vocabs : List (List Nat)}
    {st : List (Nat × Nat) × List Nat} {i j : Nat} (hne : j ≠ i)
    (hj : SliceOK vocabs st j) : SliceOK vocabs (cvStep vocabs st i) j := by
  obtain ⟨h1, h2, h3⟩ := hj
  unfold cvStep
  dsimp only
  rcases hf : findSub st.2 (vocabs.getD i []) with _ | off
  · simp only
    unfold SliceOK
    rw [getD_set_ne_pair hne]
    refine ⟨h1, ?_, ?_⟩
    · rw [List.length_append]
      omega
    · rw [seg_extend_stable h2]
      exact h3
  · simp only
    unfold SliceOK
    rw [getD_set_ne_pair hne]
    exact ⟨h1, h2, h3⟩

theorem cvStep_length {vocabs : List (List Nat)}
    {st : List (Nat × Nat) × List Nat} {i : Nat} :
    (cvStep vocabs st i).1.length = st.1.length := by
  unfold cvStep
  dsimp only
  rcases hf : findSub st.2 (vocabs.getD i []) with _ | off
  · simp
  · simp

theorem cvFold_inv (vocabs : List (List Nat)) : ∀ (L : List Nat)
    (st : List (Nat × Nat) × List Nat),
    st.1.length = vocabs.length → (∀ i ∈ L, i < vocabs.length) →
    (L.foldl (cvStep vocabs) st).1.length = vocabs.length ∧
      (∀ j, SliceOK vocabs st j →
        SliceOK vocabs (L.foldl (cvStep vocabs) st) j) ∧
      (∀ j ∈ L, SliceOK vocabs (L.foldl (cvStep vocabs) st) j)
  | [], st, hlen, _ => ⟨hlen, fun _ hj => hj, fun j hj => absurd hj (by simp)⟩
  | i :: L, st, hlen, hL => by
    have hi : i < vocabs.length := hL i (by simp)
    have hlen1 : (cvStep vocabs st i).1.length = vocabs.length := by
      rw [cvStep_length, hlen]
    have ih := cvFold_inv vocabs L (cvStep vocabs st i) hlen1
      (fun k hk => hL k (by simp [hk]))
    simp only [List.foldl_cons]
    refine ⟨ih.1, ?_, ?_⟩
    · intro j hj
      by_cases hji : j = i
      · subst hji
        exact ih.2.1 j (cvStep_establishes hlen hi)
      · exact ih.2.1 j (cvStep_preserves hji hj)
    · intro j hj
      rcases List.mem_cons.mp hj with rfl | hj2
      · exact ih.2.1 j (cvStep_establishes hlen hi)
      · exact ih.2.2 j hj2

theorem mem_insertByLen {vocabs : List (List Nat)} {i j : Nat} :
    ∀ l : List Nat, (j ∈ insertByLen vocabs i l ↔ j = i ∨ j ∈ l)
  | [] => by simp [insertByLen]
  | k :: ks => by
    unfold insertByLen
    by_cases h : (vocabs.getD k []).length ≤ (vocabs.getD i []).length
    · rw [if_pos h]
      simp only [List.mem_cons]
    · rw [if_neg h]
      simp only [List.mem_cons, @mem_insertByLen vocabs i j ks]
      tauto

theorem mem_sortedIndices {vocabs : List (List Nat)} {j : Nat} :
    j ∈ sortedIndices vocabs ↔ j < vocabs.length := by
  have key : ∀ L : List Nat, (j ∈ L.foldr (insertByLen vocabs) [] ↔ j ∈ L) := by
    intro L
    induction L with
    | nil => simp
    | cons k ks ih =>
      simp only [List.foldr_cons, mem_insertByLen, List.mem_cons, ih]
  unfold sortedIndices
  rw [key, List.mem_range]

/-- Claim C8: after the compression pass of `CompressedVocab::new`,
the slice table has one entry per piece, and every recorded
`(offset, length)` pair has the piece's length, lies inside the final
buffer, and resolves to exactly that piece's bytes — so every piece
occurs as a contiguous substring of the single buffer. -/
theorem claim_c8_arena (vocabs : List (List Nat)) :
    (compressedVocab vocabs).1.length = vocabs.length ∧
      ∀ i, i < vocabs.length →
        ((compressedVocab vocabs).1.getD i (0, 0)).2 =
            (vocabs.getD i []).length ∧
          ((compressedVocab vocabs).1.getD i (0, 0)).1 +
              (vocabs.getD i []).length ≤ (compressedVocab vocabs).2.length ∧
          seg (compressedVocab vocabs).2
              ((compressedVocab vocabs).1.getD i (0, 0)).1
              (vocabs.getD i []).length = vocabs.getD i [] := by
  have h := cvFold_inv vocabs (sortedIndices vocabs)
    (List.replicate vocabs.length (0, 0), []) (by simp)
    (fun i hi => mem_sortedIndices.mp hi)
  exact ⟨h.1, fun i hi => h.2.2 i (mem_sortedIndices.mpr hi)⟩

/-- Witness for C8 at the pieces `[ab, b, c]`: the slice recorded for
piece 1 (`b`, a substring of `ab`) resolves to `b` in the buffer. -/
theorem claim_c8_arena_witness :
    seg (compressedVocab [[97, 98], [98], [99]]).2
        ((compressedVocab [[97, 98], [98], [99]]).1.getD 1 (0, 0)).1
        ([[97, 98], [98], [99]].getD 1 []).length =
      [[97, 98], [98], [99]].getD 1 [] :=
  ((claim_c8_arena [[97, 98], [98], [99]]).2 1 (by decide)).2.2


/-- The record scan of `Bpe::from_tokenizer_model`
(src/src/bpe/mod.rs): at each offset, slicing `model[offset..]` past
the end is a panic (`none`); a remainder matching
`[10, total_len, 10, content @ ..]` records `content[..total_len - 2]`
(panicking when `total_len < 2` or the slice overruns `content`) and
advances the offset by `total_len + 2`; any other remainder stops the
scan.  Fuel bounds the iteration count. -/
def parseModel : Nat → List Nat → Nat → Option (List (List Nat))
  | 0, _, _ => none
  | fuel + 1, m, offset =>
    if m.length < offset then none
    else
      match m.drop offset with
      | 10 :: l :: 10 :: content =>
        if l < 2 then none
        else if content.length < l - 2 then none
        else (parseModel fuel m (offset + l + 2)).map
          (fun rs => content.take (l - 2) :: rs)
      | _ => some []

/-- The framing exactly as the claim words it: a record is `0x0A`, a
length byte, `0x0A`, then `total_len - 2` content bytes, and the next
record begins immediately after those content bytes (offset advances by
`3 + (total_len - 2)`). -/
def parseModelClaim : Nat → List Nat → Nat → Option (List (List Nat))
  | 0, _, _ => none
  | fuel + 1, m, offset =>
    if m.length < offset then none
    else
      if offset + 3 ≤ m.length ∧ m.getD offset 0 = 10 ∧
          m.getD (offset + 2) 0 = 10 then
        if m.getD (offset + 1) 0 < 2 then none
        else if m.length < offset + 3 + (m.getD (offset + 1) 0 - 2) then none
        else (parseModelClaim fuel m (offset + 3 + (m.getD (offset + 1) 0 - 2))).map
          (fun rs => seg m (offset + 3) (m.getD (offset + 1) 0 - 2) :: rs)
      else some []

/-- The amended framing: as in the claim, except that the next record
begins `total_len + 2` bytes after the record start — i.e. one byte
after the `total_len - 2` recorded content bytes, so records are
separated by one ignored byte. -/
def parseModelAmended : Nat → List Nat → Nat → Option (List (List Nat))
  | 0, _, _ => none
  | fuel + 1, m, offset =>
    if m.length < offset then none
    else
      if offset + 3 ≤ m.length ∧ m.getD offset 0 = 10 ∧
          m.getD (offset + 2) 0 = 10 then
        if m.getD (offset + 1) 0 < 2 then none
        else if m.length < offset + 3 + (m.getD (offset + 1) 0 - 2) then none
        else (parseModelAmended fuel m (offset + (m.getD (offset + 1) 0) + 2)).map
          (fun rs => seg m (offset + 3) (m.getD (offset + 1) 0 - 2) :: rs)
      else some []

theorem drop_eq_getD_cons {m : List Nat} {p : Nat} (h : p < m.length) :
    m.drop p = m.getD p 0 :: m.drop (p + 1) := by
  rw [List.drop_eq_getElem_cons h]
  congr 1
  simp [List.getD_eq_getElem?_getD, List.getElem?_eq_getElem h]

/-- Claim C9 (amended, refinement): the source scan of
`from_tokenizer_model` computes exactly the amended framing — records
`0x0A, total_len, 0x0A, total_len - 2 content bytes, one ignored byte`,
read until the framing no longer matches, panicking on truncated
records. -/
theorem claim_c9_model_framing : ∀ (fuel : Nat) (m : List Nat) (offset : Nat),
    parseModel fuel m offset = parseModelAmended fuel m offset
  | 0, _, _ => rfl
  | fuel + 1, m, offset => by
    unfold parseModel parseModelAmended
    by_cases h0 : m.length < offset
    · rw [if_pos h0, if_pos h0]
    · rw [if_neg h0, if_neg h0]
      split
      · rename_i l content heq
        have hlen : m.length - offset = content.length + 3 := by
          have := congrArg List.length heq
          simp at this
          omega
        have h3 : offset + 3 ≤ m.length := by omega
        have hgd : ∀ k, m.getD (offset + k) 0 = (m.drop offset).getD k 0 := by
          intro k
          simp [List.getD_eq_getElem?_getD, List.getElem?_drop]
        have ha : m.getD offset 0 = 10 := by
          have h := hgd 0
          rw [Nat.add_zero] at h
          rw [h, heq]
          rfl
        have hb : m.getD (offset + 1) 0 = l := by
          rw [hgd 1, heq]
          rfl
        have hc : m.getD (offset + 2) 0 = 10 := by
          rw [hgd 2, heq]
          rfl
        have hcont : m.drop (offset + 3) = content := by
          have h := List.drop_drop 3 offset m
          rw [heq] at h
          exact h.symm
        conv_rhs => rw [if_pos ⟨h3, ha, hc⟩]
        rw [hb]
        by_cases hl2 : l < 2
        · rw [if_pos hl2, if_pos hl2]
        · rw [if_neg hl2, if_neg hl2]
          by_cases hc2 : content.length < l - 2
          · rw [if_pos hc2, if_pos (show m.length < offset + 3 + (l - 2) by omega)]
          · rw [if_neg hc2, if_neg (show ¬ m.length < offset + 3 + (l - 2) by omega)]
            rw [claim_c9_model_framing fuel m (offset + l + 2)]
            have hseg : seg m (offset + 3) (l - 2) = content.take (l - 2) := by
              unfold seg
              rw [hcont]
            rw [hseg]
      · rename_i hne
        rw [if_neg ?_]
        rintro ⟨h3, ha, hc⟩
        have hd : m.drop offset = m.getD offset 0 :: m.getD (offset + 1) 0 ::
            m.getD (offset + 2) 0 :: m.drop (offset + 3) := by
          rw [@drop_eq_getD_cons m offset (by omega)]
          rw [@drop_eq_getD_cons m (offset + 1) (by omega)]
          rw [@drop_eq_getD_cons m (offset + 2) (by omega)]
        exact hne (m.getD (offset + 1) 0) (m.drop (offset + 3))
          (by rw [hd, ha, hc])

/-- Claim C9 (counterexample to the stated framing): on the model bytes
`[10, 3, 10, 67, 0, 10, 3, 10, 68, 0]` the source scan reads two
records (`C` and `D`), while the claimed framing — next record starting
immediately after the `total_len - 2` content bytes — reads the first
record and then stops at the non-`0x0A` gap byte, so the two framings
disagree. -/
theorem claim_c9_counterexample :
    parseModel 11 [10, 3, 10, 67, 0, 10, 3, 10, 68, 0] 0 =
        some [[67], [68]] ∧
      parseModelClaim 11 [10, 3, 10, 67, 0, 10, 3, 10, 68, 0] 0 =
        some [[67]] ∧
      parseModel 11 [10, 3, 10, 67, 0, 10, 3, 10, 68, 0] 0 ≠
        parseModelClaim 11 [10, 3, 10, 67, 0, 10, 3, 10, 68, 0] 0 := by
  exact ⟨by decide, by decide, by decide⟩

end Tokeneer
